import Mathlib

/-!
Shallow embedding of the `cuet` RIFF/WAVE metadata library (src/src/lib.rs)
and proofs about its documented behaviour.

Bytes are modelled as `Nat` (values produced by the encoders are always
`< 256` via `% 256`); machine integers are `Nat` with explicit `% 2^32`
where Rust performs a truncating cast, and explicit bounds checks where the
Rust code uses `checked_*` / `u32::try_from`.  A seekable byte stream
(Rust's `io::Cursor` over a byte vector) is a pair of a byte list and a
position; fallible operations return `Except Error`.
-/

namespace Cuet

/-- Error type mirroring `enum Error { Wave(String), Io(io::Error) }` in
lib.rs.  I/O errors carry no payload we need. -/
inductive Error where
  | wave (msg : String)
  | io
deriving Repr, DecidableEq

/-- Constant `CHUNK_TOO_BIG` from lib.rs line 7. -/
def CHUNK_TOO_BIG : String := "Chunk size exceeds bounds of 32-bit integer"

/-- Constant `CHUNK_HEAD_SZ` from lib.rs. -/
def CHUNK_HEAD_SZ : Nat := 8

/-- Constant `CUE_SZ` from lib.rs. -/
def CUE_SZ : Nat := 24

/-- Constant `LABELED_TEXT_MIN_SZ` from lib.rs. -/
def LABELED_TEXT_MIN_SZ : Nat := 20

/-- Little-endian encoding of a 32-bit value (`u32::to_le_bytes`).
Truncation to 32 bits is explicit via `% 256` on each extracted byte. -/
def toLe32 (n : Nat) : List Nat :=
  [n % 256, n / 256 % 256, n / 65536 % 256, n / 16777216 % 256]

/-- Little-endian decoding of 4 bytes (`u32::from_le_bytes`); any list that
is not 4 bytes long decodes to 0 (unreachable in the modelled code paths,
which always supply exactly 4 bytes). -/
def fromLe32 (l : List Nat) : Nat :=
  match l with
  | [a, b, c, d] => a + 256 * b + 65536 * c + 16777216 * d
  | _ => 0

/-- Little-endian encoding of a 16-bit value (`u16::to_le_bytes`). -/
def toLe16 (n : Nat) : List Nat := [n % 256, n / 256 % 256]

/-- Little-endian decoding of 2 bytes (`u16::from_le_bytes`). -/
def fromLe16 (l : List Nat) : Nat :=
  match l with
  | [a, b] => a + 256 * b
  | _ => 0

theorem fromLe32_toLe32 (n : Nat) : fromLe32 (toLe32 n) = n % 4294967296 := by
  simp only [toLe32, fromLe32]
  omega

theorem fromLe32_toLe32_of_lt {n : Nat} (h : n < 4294967296) :
    fromLe32 (toLe32 n) = n := by
  rw [fromLe32_toLe32, Nat.mod_eq_of_lt h]

theorem toLe32_length (n : Nat) : (toLe32 n).length = 4 := rfl

/-- Fixed 4-byte tag (`[u8; 4]` in Rust). -/
structure Tag4 where
  b0 : Nat
  b1 : Nat
  b2 : Nat
  b3 : Nat
deriving Repr, DecidableEq

/-- Raw bytes of a 4-byte tag. -/
def Tag4.bytes (t : Tag4) : List Nat := [t.b0, t.b1, t.b2, t.b3]

/-- Conversion of a 4-byte list back into a `Tag4`; other lengths give a
zero tag (unreachable: callers always supply exactly 4 bytes). -/
def tag4OfList (l : List Nat) : Tag4 :=
  match l with
  | [a, b, c, d] => ⟨a, b, c, d⟩
  | _ => ⟨0, 0, 0, 0⟩

theorem tag4OfList_bytes (t : Tag4) : tag4OfList t.bytes = t := rfl

/-- Fixed 2-byte field (`[u8; 2]` in Rust). -/
structure Tag2 where
  b0 : Nat
  b1 : Nat
deriving Repr, DecidableEq

/-- Raw bytes of a 2-byte field. -/
def Tag2.bytes (t : Tag2) : List Nat := [t.b0, t.b1]

/-- Tag literal `b"RIFF"`. -/
def riffTag : Tag4 := ⟨0x52, 0x49, 0x46, 0x46⟩
/-- Tag literal `b"WAVE"`. -/
def waveTag : Tag4 := ⟨0x57, 0x41, 0x56, 0x45⟩
/-- Tag literal `b"cue "`. -/
def cueTag : Tag4 := ⟨0x63, 0x75, 0x65, 0x20⟩
/-- Tag literal `b"LIST"`. -/
def listTag : Tag4 := ⟨0x4C, 0x49, 0x53, 0x54⟩
/-- Tag literal `b"ltxt"`. -/
def ltxtTag : Tag4 := ⟨0x6C, 0x74, 0x78, 0x74⟩
/-- Tag literal `b"adtl"`. -/
def adtlTag : Tag4 := ⟨0x61, 0x64, 0x74, 0x6C⟩
/-- Tag literal `b"data"`. -/
def dataTag : Tag4 := ⟨0x64, 0x61, 0x74, 0x61⟩
/-- Tag literal `b"mark"`. -/
def markTag : Tag4 := ⟨0x6D, 0x61, 0x72, 0x6B⟩

/-- Byte stream with a cursor, modelling Rust's `io::Cursor` over a byte
vector (`Vec<u8>` for writing, `&[u8]` for reading). -/
structure Stream where
  data : List Nat
  pos : Nat
deriving Repr, DecidableEq

namespace Stream

/-- Model of `Read::read_exact` for `io::Cursor`: succeeds when `n` bytes
are available at the current position, advancing the position; otherwise
fails with an I/O error (`UnexpectedEof`), the position having advanced to
the end of the data (the default `read_exact` loop drains what remains).
The stream is returned in both cases, as with a Rust `&mut` cursor. -/
def read_exact (s : Stream) (n : Nat) : Except Error (List Nat) × Stream :=
  if s.pos + n ≤ s.data.length then
    (.ok ((s.data.drop s.pos).take n), { s with pos := s.pos + n })
  else
    (.error .io, { s with pos := s.data.length })

/-- Model of `Write::write_all` for `io::Cursor<&mut Vec<u8>>`: overwrites
bytes at the current position, extending the vector when writing past its
end, zero-filling any gap when the position exceeds the current length.
Never fails. -/
def write_all (s : Stream) (bytes : List Nat) : Stream :=
  { data :=
      s.data.take s.pos ++ List.replicate (s.pos - s.data.length) 0 ++
        bytes ++ s.data.drop (s.pos + bytes.length),
    pos := s.pos + bytes.length }

/-- Model of `Seek::seek(SeekFrom::Start(n))`: always succeeds. -/
def seekStart (s : Stream) (n : Nat) : Stream := { s with pos := n }

/-- Model of `Seek::seek(SeekFrom::Current(d))`: fails with an I/O error
when the resulting position would be negative, leaving the position
unchanged. -/
def seekCurrent (s : Stream) (d : Int) : Except Error Unit × Stream :=
  if (s.pos : Int) + d < 0 then (.error .io, s)
  else (.ok (), { s with pos := ((s.pos : Int) + d).toNat })

/-- Model of `Seek::stream_position`. -/
def stream_position (s : Stream) : Nat := s.pos

end Stream

/-- Struct `ChunkHead { tag: [u8; 4], size: u32 }` from lib.rs. -/
structure ChunkHead where
  tag : Tag4
  size : Nat
deriving Repr, DecidableEq

namespace ChunkHead

/-- Model of `ChunkHead::parse`: read 4 tag bytes then a 4-byte
little-endian size from the stream. -/
def parse (s : Stream) : Except Error ChunkHead × Stream :=
  match s.read_exact 4 with
  | (.error e, s) => (.error e, s)
  | (.ok tagBytes, s) =>
    match s.read_exact 4 with
    | (.error e, s) => (.error e, s)
    | (.ok sizeBytes, s) =>
      (.ok { tag := tag4OfList tagBytes, size := fromLe32 sizeBytes }, s)

/-- Model of `ChunkHead::as_bytes`: tag bytes followed by the size's
little-endian bytes, 8 bytes total. -/
def as_bytes (h : ChunkHead) : List Nat := h.tag.bytes ++ toLe32 h.size

end ChunkHead

/-- Struct `CuePoint` from lib.rs: six 32-bit fields, `data_tag` raw. -/
structure CuePoint where
  id : Nat
  position : Nat
  data_tag : Tag4
  chunk_start : Nat
  block_start : Nat
  sample_offset : Nat
deriving Repr, DecidableEq

namespace CuePoint

/-- Invariant carried by the Rust types: every `u32` field is below
`2^32`.  Tag bytes are copied verbatim, so they need no bound. -/
def Wf (c : CuePoint) : Prop :=
  c.id < 4294967296 ∧ c.position < 4294967296 ∧
    c.chunk_start < 4294967296 ∧ c.block_start < 4294967296 ∧
    c.sample_offset < 4294967296

instance (c : CuePoint) : Decidable c.Wf := by
  unfold Wf; infer_instance

/-- Model of `CuePoint::parse` (private; bytes length must be `CUE_SZ`):
six consecutive 4-byte little-endian groups in fixed order. -/
def parse (bytes : List Nat) : CuePoint :=
  { id := fromLe32 (bytes.take 4),
    position := fromLe32 ((bytes.drop 4).take 4),
    data_tag := tag4OfList ((bytes.drop 8).take 4),
    chunk_start := fromLe32 ((bytes.drop 12).take 4),
    block_start := fromLe32 ((bytes.drop 16).take 4),
    sample_offset := fromLe32 ((bytes.drop 20).take 4) }

/-- Model of `CuePoint::from_sample_offset`. -/
def from_sample_offset (id offset : Nat) : CuePoint :=
  { id := id, position := 0, data_tag := dataTag, chunk_start := 0,
    block_start := 0, sample_offset := offset }

/-- Model of `CuePoint::as_bytes`: the 24-byte record. -/
def as_bytes (c : CuePoint) : List Nat :=
  toLe32 c.id ++ toLe32 c.position ++ c.data_tag.bytes ++
    toLe32 c.chunk_start ++ toLe32 c.block_start ++ toLe32 c.sample_offset

theorem cue_record_length (c : CuePoint) : c.as_bytes.length = 24 := rfl

end CuePoint

/-- Loop of `slice::chunks_exact(24)`, indexed by fuel (one unit per
emitted group; `l.length` units always suffice). -/
def chunksExact24Loop : Nat → List Nat → List (List Nat)
  | 0, _ => []
  | fuel + 1, l =>
    if 24 ≤ l.length then l.take 24 :: chunksExact24Loop fuel (l.drop 24)
    else []

/-- Model of `slice::chunks_exact(24)`: consecutive complete 24-byte
groups, any trailing partial group dropped. -/
def chunksExact24 (l : List Nat) : List (List Nat) :=
  chunksExact24Loop l.length l

theorem chunksExact24Loop_congr :
    ∀ f1 f2 l, l.length ≤ f1 → l.length ≤ f2 →
      chunksExact24Loop f1 l = chunksExact24Loop f2 l := by
  intro f1
  induction f1 with
  | zero =>
    intro f2 l h1 _
    have : l = [] := List.eq_nil_of_length_eq_zero (by omega)
    subst this
    cases f2 <;> simp [chunksExact24Loop]
  | succ n ih =>
    intro f2 l h1 h2
    rcases f2 with _ | m
    · have : l = [] := List.eq_nil_of_length_eq_zero (by omega)
      subst this
      simp [chunksExact24Loop]
    · simp only [chunksExact24Loop]
      by_cases h24 : 24 ≤ l.length
      · rw [if_pos h24, if_pos h24]
        have hd : (l.drop 24).length = l.length - 24 := by simp
        rw [ih m (l.drop 24) (by omega) (by omega)]
      · rw [if_neg h24, if_neg h24]

theorem chunksExact24_eq_cons {l : List Nat} (h : 24 ≤ l.length) :
    chunksExact24 l = l.take 24 :: chunksExact24 (l.drop 24) := by
  unfold chunksExact24
  rcases hl : l.length with _ | k
  · omega
  · rw [hl] at h
    simp only [chunksExact24Loop]
    rw [if_pos (by omega)]
    have hd : (l.drop 24).length = l.length - 24 := by simp
    rw [chunksExact24Loop_congr k (l.drop 24).length (l.drop 24)
      (by omega) (by omega)]

theorem chunksExact24_eq_nil {l : List Nat} (h : l.length < 24) :
    chunksExact24 l = [] := by
  unfold chunksExact24
  rcases hl : l.length with _ | k
  · simp [chunksExact24Loop]
  · simp only [chunksExact24Loop]
    rw [if_neg (by omega)]

/-- Model of `parse_cue_points` from lib.rs.  The Rust body indexes
`bytes[4..]`, which panics when the buffer holds fewer than 4 bytes; the
panic is modelled as `none`. -/
def parse_cue_points (bytes : List Nat) : Option (List CuePoint) :=
  if 4 ≤ bytes.length then
    some ((chunksExact24 (bytes.drop 4)).map CuePoint.parse)
  else
    none

/-- Continuation byte test for UTF-8 (`0x80..=0xBF`). -/
def isCont (b : Nat) : Bool := 0x80 ≤ b && b ≤ 0xBF

/-- Decoding of one UTF-8 scalar at the head of a byte list, following the
table in RFC 3629 (and Rust's `core::str` validation): on success, the
scalar's bytes and the remaining list.  Surrogates and overlong forms are
rejected via the restricted second-byte ranges. -/
def utf8Decode1 : List Nat → Option (List Nat × List Nat)
  | [] => none
  | b0 :: r0 =>
    if b0 < 0x80 then some ([b0], r0)
    else
      match r0 with
      | [] => none
      | b1 :: r1 =>
        if 0xC2 ≤ b0 && b0 ≤ 0xDF && isCont b1 then some ([b0, b1], r1)
        else
          match r1 with
          | [] => none
          | b2 :: r2 =>
            if ((b0 = 0xE0 && 0xA0 ≤ b1 && b1 ≤ 0xBF) ||
                (0xE1 ≤ b0 && b0 ≤ 0xEC && isCont b1) ||
                (b0 = 0xED && 0x80 ≤ b1 && b1 ≤ 0x9F) ||
                (0xEE ≤ b0 && b0 ≤ 0xEF && isCont b1)) && isCont b2 then
              some ([b0, b1, b2], r2)
            else
              match r2 with
              | [] => none
              | b3 :: r3 =>
                if ((b0 = 0xF0 && 0x90 ≤ b1 && b1 ≤ 0xBF) ||
                    (0xF1 ≤ b0 && b0 ≤ 0xF3 && isCont b1) ||
                    (b0 = 0xF4 && 0x80 ≤ b1 && b1 ≤ 0x8F)) &&
                    isCont b2 && isCont b3 then
                  some ([b0, b1, b2, b3], r3)
                else none

theorem utf8Decode1_shrinks :
    ∀ l s r, utf8Decode1 l = some (s, r) → r.length < l.length := by
  intro l s r h
  unfold utf8Decode1 at h
  rcases l with _ | ⟨b0, r0⟩
  · exact absurd h (by simp)
  · simp only at h
    split at h
    · simp only [Option.some.injEq, Prod.mk.injEq] at h
      simp [← h.2, Nat.lt_succ_iff]
    · rcases r0 with _ | ⟨b1, r1⟩
      · exact absurd h (by simp)
      · simp only at h
        split at h
        · simp only [Option.some.injEq, Prod.mk.injEq] at h
          simp only [← h.2, List.length_cons]
          omega
        · rcases r1 with _ | ⟨b2, r2⟩
          · exact absurd h (by simp)
          · simp only at h
            split at h
            · simp only [Option.some.injEq, Prod.mk.injEq] at h
              simp only [← h.2, List.length_cons]
              omega
            · rcases r2 with _ | ⟨b3, r3⟩
              · exact absurd h (by simp)
              · simp only at h
                split at h
                · simp only [Option.some.injEq, Prod.mk.injEq] at h
                  simp only [← h.2, List.length_cons]
                  omega
                · exact absurd h (by simp)

theorem utf8Decode1_append :
    ∀ l s r, utf8Decode1 l = some (s, r) → s ++ r = l := by
  intro l s r h
  unfold utf8Decode1 at h
  rcases l with _ | ⟨b0, r0⟩
  · exact absurd h (by simp)
  · simp only at h
    split at h
    · simp only [Option.some.injEq, Prod.mk.injEq] at h
      simp [← h.1, ← h.2]
    · rcases r0 with _ | ⟨b1, r1⟩
      · exact absurd h (by simp)
      · simp only at h
        split at h
        · simp only [Option.some.injEq, Prod.mk.injEq] at h
          simp [← h.1, ← h.2]
        · rcases r1 with _ | ⟨b2, r2⟩
          · exact absurd h (by simp)
          · simp only at h
            split at h
            · simp only [Option.some.injEq, Prod.mk.injEq] at h
              simp [← h.1, ← h.2]
            · rcases r2 with _ | ⟨b3, r3⟩
              · exact absurd h (by simp)
              · simp only at h
                split at h
                · simp only [Option.some.injEq, Prod.mk.injEq] at h
                  simp [← h.1, ← h.2]
                · exact absurd h (by simp)

/-- Replacement character U+FFFD as UTF-8 bytes. -/
def replacementBytes : List Nat := [0xEF, 0xBF, 0xBD]

/-- Fuel-indexed model of `String::from_utf8_lossy` at the byte level:
valid scalars are copied through, invalid sequences are replaced with
U+FFFD.  (Rust skips the maximal invalid subpart, 1–3 bytes; the model
skips 1 byte per replacement — the two agree on every valid input, the
only case any claim depends on.)  One unit of fuel is spent per scalar;
`utf8Lossy` supplies `l.length`, which always suffices. -/
def utf8LossyFuel : Nat → List Nat → List Nat
  | 0, _ => []
  | _ + 1, [] => []
  | fuel + 1, b :: rest =>
    match utf8Decode1 (b :: rest) with
    | some (s, r) => s ++ utf8LossyFuel fuel r
    | none => replacementBytes ++ utf8LossyFuel fuel rest

/-- Byte-level model of `String::from_utf8_lossy`. -/
def utf8Lossy (l : List Nat) : List Nat := utf8LossyFuel l.length l

/-- Fuel-indexed UTF-8 validity check (the invariant of a Rust `String`):
the byte list is a concatenation of valid scalars. -/
def utf8ValidFuel : Nat → List Nat → Bool
  | 0, l => l.isEmpty
  | _ + 1, [] => true
  | fuel + 1, b :: rest =>
    match utf8Decode1 (b :: rest) with
    | some (_, r) => utf8ValidFuel fuel r
    | none => false

/-- UTF-8 validity of a byte list. -/
def Utf8Valid (l : List Nat) : Prop := utf8ValidFuel l.length l = true

instance (l : List Nat) : Decidable (Utf8Valid l) := by
  unfold Utf8Valid; infer_instance

theorem utf8ValidFuel_mono :
    ∀ fuel fuel' l, l.length ≤ fuel → fuel ≤ fuel' →
      utf8ValidFuel fuel l = true → utf8ValidFuel fuel' l = true := by
  intro fuel
  induction fuel with
  | zero =>
    intro fuel' l hl _ h
    simp only [utf8ValidFuel, List.isEmpty_iff] at h
    subst h
    cases fuel' <;> simp [utf8ValidFuel]
  | succ n ih =>
    intro fuel' l hl hff h
    rcases l with _ | ⟨b, rest⟩
    · cases fuel' <;> simp [utf8ValidFuel]
    · rcases fuel' with _ | m
      · omega
      · simp only [utf8ValidFuel] at h ⊢
        rcases hd : utf8Decode1 (b :: rest) with _ | ⟨s, r⟩
        · rw [hd] at h; exact absurd h (by simp)
        · rw [hd] at h
          simp only at h ⊢
          have hlt := utf8Decode1_shrinks _ _ _ hd
          exact ih m r
            (by simp only [List.length_cons] at hlt hl; omega) (by omega) h

theorem utf8LossyFuel_of_valid :
    ∀ fuel l, l.length ≤ fuel → utf8ValidFuel fuel l = true →
      utf8LossyFuel fuel l = l := by
  intro fuel
  induction fuel with
  | zero =>
    intro l hl h
    simp only [utf8ValidFuel, List.isEmpty_iff] at h
    simp [h, utf8LossyFuel]
  | succ n ih =>
    intro l hl h
    rcases l with _ | ⟨b, rest⟩
    · simp [utf8LossyFuel]
    · simp only [utf8ValidFuel, utf8LossyFuel] at h ⊢
      rcases hd : utf8Decode1 (b :: rest) with _ | ⟨s, r⟩
      · rw [hd] at h; exact absurd h (by simp)
      · rw [hd] at h
        simp only
        have hlt := utf8Decode1_shrinks _ _ _ hd
        rw [ih r (by simp only [List.length_cons] at hlt hl; omega) h]
        exact utf8Decode1_append _ _ _ hd

theorem utf8Lossy_of_valid {l : List Nat} (h : Utf8Valid l) :
    utf8Lossy l = l :=
  utf8LossyFuel_of_valid l.length l le_rfl h

/-- Conversion of a 2-byte list back to a `Tag2`; other lengths give a
zero pair (unreachable: callers supply exactly 2 bytes). -/
def tag2OfList (l : List Nat) : Tag2 :=
  match l with
  | [a, b] => ⟨a, b⟩
  | _ => ⟨0, 0⟩

/-- Struct `LabeledText` from lib.rs.  The Rust `text: String` is
modelled as its UTF-8 byte sequence. -/
structure LabeledText where
  cue_id : Nat
  sample_length : Nat
  purpose_id : Tag4
  country : Tag2
  language : Tag2
  dialect : Tag2
  code_page : Nat
  text : List Nat
deriving Repr, DecidableEq

namespace LabeledText

/-- Invariant carried by the Rust types: `u32` / `u16` fields are in
range and `text`, being a Rust `String`, is valid UTF-8. -/
def Wf (x : LabeledText) : Prop :=
  x.cue_id < 4294967296 ∧ x.sample_length < 4294967296 ∧
    x.code_page < 65536 ∧ Utf8Valid x.text

instance (x : LabeledText) : Decidable x.Wf := by
  unfold Wf; infer_instance

/-- Model of `LabeledText::parse` (private; the Rust comment requires
`bytes.len() >= LABELED_TEXT_MIN_SZ`, and the `unwrap`s panic otherwise —
the panic is modelled as `none`).  Fixed fields in order, then all
remaining bytes through `String::from_utf8_lossy`. -/
def parse? (bytes : List Nat) : Option LabeledText :=
  if 20 ≤ bytes.length then
    some
      { cue_id := fromLe32 (bytes.take 4),
        sample_length := fromLe32 ((bytes.drop 4).take 4),
        purpose_id := tag4OfList ((bytes.drop 8).take 4),
        country := tag2OfList ((bytes.drop 12).take 2),
        language := tag2OfList ((bytes.drop 14).take 2),
        dialect := tag2OfList ((bytes.drop 16).take 2),
        code_page := fromLe16 ((bytes.drop 18).take 2),
        text := utf8Lossy (bytes.drop 20) }
  else none

/-- Model of `LabeledText::as_bytes`: 20 fixed bytes then the text bytes,
no padding. -/
def as_bytes (x : LabeledText) : List Nat :=
  toLe32 x.cue_id ++ toLe32 x.sample_length ++ x.purpose_id.bytes ++
    x.country.bytes ++ x.language.bytes ++ x.dialect.bytes ++
    toLe16 x.code_page ++ x.text

theorem ltxt_record_length (x : LabeledText) :
    x.as_bytes.length = 20 + x.text.length := by
  simp [as_bytes, toLe32, toLe16, Tag4.bytes, Tag2.bytes]
  omega

/-- Model of `LabeledText::from_cue_length`. -/
def from_cue_length (cue_id sample_length : Nat) : LabeledText :=
  { cue_id := cue_id, sample_length := sample_length,
    purpose_id := markTag, country := ⟨0x20, 0x20⟩,
    language := ⟨0x20, 0x20⟩, dialect := ⟨0x20, 0x20⟩,
    code_page := 0, text := [] }

end LabeledText

/-- Loop body of `extract_labeled_text_from_list`, indexed by fuel (one
unit per iteration; each iteration consumes at least 8 bytes of `slice`,
so `slice.length` units always suffice).  Mirrors the Rust `while`
loop: read an 8-byte sub-chunk head, keep `ltxt` sub-chunks whose
declared size is at least 20 and fits in the remainder, advance past the
body clamped to the remainder, and consume one pad byte after an
odd-sized sub-chunk when bytes remain. -/
def extractLoop : Nat → List Nat → List LabeledText
  | 0, _ => []
  | fuel + 1, slice =>
    if 8 ≤ slice.length then
      let sub_chunk_len := fromLe32 ((slice.drop 4).take 4)
      let sub_chunk_tag := tag4OfList (slice.take 4)
      let slice1 := slice.drop 8
      let kept :=
        if sub_chunk_tag = ltxtTag ∧ LABELED_TEXT_MIN_SZ ≤ sub_chunk_len ∧
            sub_chunk_len ≤ slice1.length then
          (LabeledText.parse? (slice1.take sub_chunk_len)).toList
        else []
      let slice2 := slice1.drop (min sub_chunk_len slice1.length)
      let slice3 :=
        if sub_chunk_len % 2 = 1 ∧ slice2 ≠ [] then slice2.drop 1 else slice2
      kept ++ extractLoop fuel slice3
    else []

/-- Model of `extract_labeled_text_from_list` from lib.rs: early return
for buffers shorter than 4 bytes, otherwise loop over `bytes[4..]`. -/
def extract_labeled_text_from_list (bytes : List Nat) : List LabeledText :=
  if bytes.length < 4 then []
  else extractLoop (bytes.drop 4).length (bytes.drop 4)

/-- Model of `pad_size_16` from lib.rs: round an odd size up by one.
(The Rust version returns `None` on `usize` overflow at `usize::MAX`,
which cannot occur for any representable input; `Nat` needs no check.) -/
def pad_size_16 (size : Nat) : Nat :=
  if size % 2 = 1 then size + 1 else size

/-- Model of `read_riff_head` from lib.rs: parse a chunk head and the
4-byte form tag, requiring `RIFF`/`WAVE` and an even declared size. -/
def read_riff_head (s : Stream) : Except Error ChunkHead × Stream :=
  match ChunkHead.parse s with
  | (.error e, s) => (.error e, s)
  | (.ok head, s) =>
    match s.read_exact 4 with
    | (.error e, s) => (.error e, s)
    | (.ok wave_id, s) =>
      if head.tag ≠ riffTag ∨ wave_id ≠ waveTag.bytes then
        (.error (.wave "Not a WAVE file"), s)
      else if head.size % 2 = 1 then
        (.error (.wave "Malformed file: Odd RIFF size"), s)
      else
        (.ok head, s)

/-- Model of `append_cue_chunk` from lib.rs.  The `checked_mul` /
`checked_add` / `u32::try_from` chain on `usize` succeeds exactly when
`cues.len() * CUE_SZ + 4 < 2^32` (the intermediate `usize` checks cannot
fail first for any representable slice length); likewise the `u32`
additions for the new top-level size.  `cues.len() as u32` truncates,
which `toLe32` performs inherently. -/
def append_cue_chunk (s : Stream) (cues : List CuePoint) :
    Except Error Unit × Stream :=
  match read_riff_head s with
  | (.error e, s) => (.error e, s)
  | (.ok head, s) =>
    let old_size := head.size
    let riff_sz_position := s.stream_position - 8
    if cues.length * CUE_SZ + 4 < 4294967296 then
      let chunk_size := cues.length * CUE_SZ + 4
      if chunk_size + CHUNK_HEAD_SZ + old_size < 4294967296 then
        let new_size := chunk_size + CHUNK_HEAD_SZ + old_size
        let s := s.seekStart riff_sz_position
        let s := s.write_all (toLe32 new_size)
        match s.seekCurrent (old_size : Int) with
        | (.error e, s) => (.error e, s)
        | (.ok _, s) =>
          let chunk_head : ChunkHead := { tag := cueTag, size := chunk_size }
          let s := s.write_all chunk_head.as_bytes
          let s := s.write_all (toLe32 cues.length)
          let s := cues.foldl (fun s cue => s.write_all cue.as_bytes) s
          (.ok (), s)
      else (.error (.wave CHUNK_TOO_BIG), s)
    else (.error (.wave CHUNK_TOO_BIG), s)

/-- Per-record encoded size contribution used by `append_label_chunk`:
padded text length plus the 20 fixed bytes plus the 8-byte sub-head. -/
def labelChunkSize (labeled_texts : List LabeledText) : Nat :=
  labeled_texts.foldl
    (fun accum ltxt =>
      pad_size_16 ltxt.text.length + LABELED_TEXT_MIN_SZ + accum +
        CHUNK_HEAD_SZ)
    0 + 4

/-- Model of `append_label_chunk` from lib.rs.  The `try_fold` over
`checked_add` on `usize` succeeds exactly when the total
`labelChunkSize` fits `u32` (intermediate `usize` overflow cannot occur
first for representable inputs).  The per-record
`u32::try_from(..).unwrap()` cannot panic on the success path since each
record's size is bounded by the checked total. -/
def append_label_chunk (s : Stream) (labeled_texts : List LabeledText) :
    Except Error Unit × Stream :=
  match read_riff_head s with
  | (.error e, s) => (.error e, s)
  | (.ok head, s) =>
    let old_size := head.size
    let riff_sz_position := s.stream_position - 8
    if labelChunkSize labeled_texts < 4294967296 then
      let chunk_size := labelChunkSize labeled_texts
      if chunk_size + CHUNK_HEAD_SZ + old_size < 4294967296 then
        let new_size := chunk_size + CHUNK_HEAD_SZ + old_size
        let s := s.seekStart riff_sz_position
        let s := s.write_all (toLe32 new_size)
        match s.seekCurrent (old_size : Int) with
        | (.error e, s) => (.error e, s)
        | (.ok _, s) =>
          let chunk_head : ChunkHead := { tag := listTag, size := chunk_size }
          let s := s.write_all chunk_head.as_bytes
          let s := s.write_all adtlTag.bytes
          let s := labeled_texts.foldl
            (fun s ltxt =>
              let sub_chunk_sz := ltxt.text.length + LABELED_TEXT_MIN_SZ
              let sub_chunk_head : ChunkHead :=
                { tag := ltxtTag, size := sub_chunk_sz }
              let s := s.write_all sub_chunk_head.as_bytes
              let s := s.write_all ltxt.as_bytes
              if sub_chunk_sz % 2 = 1 then s.write_all [0] else s)
            s
          (.ok (), s)
      else (.error (.wave CHUNK_TOO_BIG), s)
    else (.error (.wave CHUNK_TOO_BIG), s)

/-- Struct `WaveCursor` from lib.rs. -/
structure WaveCursor where
  head : ChunkHead
  base_cursor : Stream
  wave_start : Nat
  wave_end : Nat
  first_chunk_pos : Nat
deriving Repr, DecidableEq

namespace WaveCursor

/-- Model of `WaveCursor::new`: record the construction offset, validate
the RIFF head, record the first-chunk position and `wave_end`, the latter
checked against `u64` overflow.  On failure the consumed cursor is
dropped, as in Rust. -/
def new (cursor : Stream) : Except Error WaveCursor :=
  let wave_start := cursor.stream_position
  match read_riff_head cursor with
  | (.error e, _) => .error e
  | (.ok head, cursor) =>
    let first_chunk_pos := cursor.stream_position
    if wave_start + CHUNK_HEAD_SZ + head.size < 18446744073709551616 then
      .ok { head := head, base_cursor := cursor, wave_start := wave_start,
            wave_end := wave_start + CHUNK_HEAD_SZ + head.size,
            first_chunk_pos := first_chunk_pos }
    else
      .error (.wave "WAVE size too large for file")

/-- Model of `WaveCursor::reset`: seek back to the first chunk
(`SeekFrom::Start` cannot fail in the model). -/
def reset (wc : WaveCursor) : WaveCursor :=
  { wc with base_cursor := wc.base_cursor.seekStart wc.first_chunk_pos }

/-- Model of `WaveCursor::restore_cursor`: seek the base cursor back to
the construction offset and hand it back (`SeekFrom::Start` cannot fail
in the model). -/
def restore_cursor (wc : WaveCursor) : Stream :=
  wc.base_cursor.seekStart wc.wave_start

end WaveCursor

/-- Loop body of `WaveCursor::read_next_chunk`, indexed by fuel (one unit
per iteration; every iteration that recurses advances the position by at
least 8, so `wave_end - pos + 1` units always suffice).  Mirrors the Rust
`while` loop: stop at `wave_end`; parse a head; on a tag match read the
payload, otherwise skip it by a relative seek; in both cases skip one pad
byte after an odd declared size.  (The `usize::try_from(size)` bound
check cannot fail on a 64-bit host and is omitted.) -/
def readLoop (tagFilter : Option Tag4) :
    Nat → Nat → Stream → Except Error (Option (Tag4 × List Nat)) × Stream
  | 0, _, s => (.ok none, s)
  | fuel + 1, wave_end, s =>
    if s.stream_position < wave_end then
      match ChunkHead.parse s with
      | (.error e, s) => (.error e, s)
      | (.ok chunk_head, s) =>
        let size := chunk_head.size
        if tagFilter = none ∨ tagFilter = some chunk_head.tag then
          match s.read_exact size with
          | (.error e, s) => (.error e, s)
          | (.ok buffer, s) =>
            if size % 2 = 1 then
              match s.seekCurrent 1 with
              | (.error e, s) => (.error e, s)
              | (.ok _, s) => (.ok (some (chunk_head.tag, buffer)), s)
            else (.ok (some (chunk_head.tag, buffer)), s)
        else
          match s.seekCurrent (size : Int) with
          | (.error e, s) => (.error e, s)
          | (.ok _, s) =>
            if size % 2 = 1 then
              match s.seekCurrent 1 with
              | (.error e, s) => (.error e, s)
              | (.ok _, s) => readLoop tagFilter fuel wave_end s
            else readLoop tagFilter fuel wave_end s
    else (.ok none, s)

/-- Model of `WaveCursor::read_next_chunk`. -/
def WaveCursor.read_next_chunk (wc : WaveCursor) (tagFilter : Option Tag4) :
    Except Error (Option (Tag4 × List Nat)) × WaveCursor :=
  let fuel := wc.wave_end - wc.base_cursor.pos + 1
  match readLoop tagFilter fuel wc.wave_end wc.base_cursor with
  | (r, s) => (r, { wc with base_cursor := s })

/-! Well-formed on-disk containers, used to state the reader claims. -/

/-- Logical top-level chunk: a tag and a payload. -/
structure RChunk where
  tag : Tag4
  payload : List Nat
deriving Repr, DecidableEq

/-- Wire form of one top-level chunk: head, payload, and a pad byte when
the payload length is odd. -/
def chunkBytes (c : RChunk) : List Nat :=
  c.tag.bytes ++ toLe32 c.payload.length ++ c.payload ++
    (if c.payload.length % 2 = 1 then [0] else [])

/-- Wire form of a chunk sequence. -/
def chunksBytes (cs : List RChunk) : List Nat :=
  (cs.map chunkBytes).flatten

/-- Wire form of a whole WAVE container holding the given chunks. -/
def containerBytes (cs : List RChunk) : List Nat :=
  riffTag.bytes ++ toLe32 (4 + (chunksBytes cs).length) ++ waveTag.bytes ++
    chunksBytes cs

/-- Encodability of a chunk: its declared size must survive the 32-bit
size field. -/
def RChunk.Wf (c : RChunk) : Prop := c.payload.length < 4294967296

instance (c : RChunk) : Decidable c.Wf := by
  unfold RChunk.Wf; infer_instance

theorem chunkBytes_length (c : RChunk) :
    (chunkBytes c).length =
      8 + c.payload.length + (if c.payload.length % 2 = 1 then 1 else 0) := by
  simp [chunkBytes, Tag4.bytes, toLe32]
  split <;> simp <;> omega

theorem chunkBytes_length_even (c : RChunk) :
    (chunkBytes c).length % 2 = 0 := by
  rw [chunkBytes_length]
  split <;> omega

theorem chunksBytes_nil : chunksBytes [] = [] := rfl

theorem chunksBytes_cons (c : RChunk) (cs : List RChunk) :
    chunksBytes (c :: cs) = chunkBytes c ++ chunksBytes cs := by
  simp [chunksBytes]

theorem chunksBytes_append (cs ds : List RChunk) :
    chunksBytes (cs ++ ds) = chunksBytes cs ++ chunksBytes ds := by
  simp [chunksBytes]

theorem chunksBytes_length_even (cs : List RChunk) :
    (chunksBytes cs).length % 2 = 0 := by
  induction cs with
  | nil => rfl
  | cons c cs ih =>
    rw [chunksBytes_cons]
    have h := chunkBytes_length_even c
    simp only [List.length_append]
    omega

/-! Low-level facts about reading slices out of a positioned stream. -/

theorem drop_advance {A : List Nat} {p : Nat} {X R : List Nat}
    (h : A.drop p = X ++ R) : A.drop (p + X.length) = R := by
  rw [← List.drop_drop, h, List.drop_left]

theorem Stream.read_exact_at {s : Stream} {X R : List Nat}
    (h : s.data.drop s.pos = X ++ R) (hpos : s.pos ≤ s.data.length) :
    s.read_exact X.length = (.ok X, { s with pos := s.pos + X.length }) := by
  have hlen : s.data.length - s.pos = X.length + R.length := by
    simpa using congrArg List.length h
  unfold Stream.read_exact
  rw [if_pos (by omega), h, List.take_left]

theorem Stream.seekCurrent_ofNat (s : Stream) (d : Nat) :
    s.seekCurrent (d : Int) = (.ok (), { s with pos := s.pos + d }) := by
  unfold Stream.seekCurrent
  rw [if_neg (by omega)]
  have h : (((s.pos : Int)) + (d : Int)).toNat = s.pos + d := by omega
  rw [h]

theorem ChunkHead.parse_at {s : Stream} {t : Tag4} {n : Nat} {R : List Nat}
    (h : s.data.drop s.pos = t.bytes ++ toLe32 n ++ R)
    (hn : n < 4294967296) :
    ChunkHead.parse s = (.ok ⟨t, n⟩, { s with pos := s.pos + 8 }) := by
  have h1 : s.data.drop s.pos = t.bytes ++ (toLe32 n ++ R) := by
    rw [h, List.append_assoc]
  have hh := congrArg List.length h1
  simp only [List.length_drop, List.length_append, Tag4.bytes, toLe32,
    List.length_cons, List.length_nil] at hh
  have hpos : s.pos ≤ s.data.length := by omega
  have hr1 := Stream.read_exact_at h1 hpos
  have h2 : s.data.drop (s.pos + 4) = toLe32 n ++ R := by
    have hd := drop_advance h1
    have e4 : (Tag4.bytes t).length = 4 := rfl
    rw [e4] at hd
    exact hd
  have hr2 := Stream.read_exact_at (s := ⟨s.data, s.pos + 4⟩) h2
    (by show s.pos + 4 ≤ s.data.length; omega)
  unfold ChunkHead.parse
  have e4 : (Tag4.bytes t).length = 4 := rfl
  rw [e4] at hr1
  have e4' : (toLe32 n).length = 4 := rfl
  rw [e4'] at hr2
  have e44 : s.pos + 4 + 4 = s.pos + 8 := by omega
  simp only [hr1, hr2, tag4OfList_bytes, fromLe32_toLe32_of_lt hn, e44]

theorem readLoop_step (tagFilter : Option Tag4) (fuel wave_end : Nat)
    (s : Stream) (c : RChunk) (R : List Nat)
    (hA : s.data.drop s.pos = chunkBytes c ++ R)
    (hwf : c.Wf)
    (hend : s.pos + (chunkBytes c).length ≤ wave_end) :
    readLoop tagFilter (fuel + 1) wave_end s =
      if tagFilter = none ∨ tagFilter = some c.tag then
        (.ok (some (c.tag, c.payload)),
          { s with pos := s.pos + (chunkBytes c).length })
      else
        readLoop tagFilter fuel wave_end
          { s with pos := s.pos + (chunkBytes c).length } := by
  have hcb : (chunkBytes c).length =
      8 + c.payload.length + (if c.payload.length % 2 = 1 then 1 else 0) :=
    chunkBytes_length c
  have hA' : s.data.drop s.pos =
      c.tag.bytes ++ toLe32 c.payload.length ++
        ((c.payload ++ (if c.payload.length % 2 = 1 then [0] else [])) ++ R) := by
    rw [hA, chunkBytes]
    simp [List.append_assoc]
  have hlen : s.data.length - s.pos = (chunkBytes c).length + R.length := by
    simpa using congrArg List.length hA
  have hpos : s.pos ≤ s.data.length := by omega
  have hparse := ChunkHead.parse_at hA' hwf
  have hdrop8 : s.data.drop (s.pos + 8) =
      c.payload ++ ((if c.payload.length % 2 = 1 then [0] else []) ++ R) := by
    have h12 : s.data.drop s.pos =
        (c.tag.bytes ++ toLe32 c.payload.length) ++
          ((c.payload ++ (if c.payload.length % 2 = 1 then [0] else [])) ++ R) := by
      rw [hA']
    have := drop_advance h12
    simp only [List.length_append] at this
    have e8 : (Tag4.bytes c.tag).length + (toLe32 c.payload.length).length = 8 :=
      rfl
    rw [e8] at this
    rw [this, List.append_assoc]
  have hread : (⟨s.data, s.pos + 8⟩ : Stream).read_exact c.payload.length =
      (.ok c.payload, ⟨s.data, s.pos + 8 + c.payload.length⟩) := by
    have := Stream.read_exact_at (s := ⟨s.data, s.pos + 8⟩) hdrop8 (by simp; omega)
    simpa using this
  rw [readLoop]
  have hlt : s.stream_position < wave_end := by
    unfold Stream.stream_position; omega
  rw [if_pos hlt, hparse]
  simp only
  by_cases hm : tagFilter = none ∨ tagFilter = some c.tag
  · rw [if_pos hm, if_pos hm]
    have : ({ s with pos := s.pos + 8 } : Stream) = ⟨s.data, s.pos + 8⟩ := rfl
    rw [this, hread]
    simp only
    by_cases hodd : c.payload.length % 2 = 1
    · rw [if_pos hodd]
      have hseek := Stream.seekCurrent_ofNat (⟨s.data, s.pos + 8 + c.payload.length⟩ : Stream) 1
      have e1 : ((1 : Nat) : Int) = (1 : Int) := rfl
      rw [e1] at hseek
      rw [hseek]
      simp only [if_pos hodd] at hcb
      have : s.pos + 8 + c.payload.length + 1 = s.pos + (chunkBytes c).length := by
        omega
      rw [this]
    · rw [if_neg hodd]
      simp only [if_neg hodd] at hcb
      have : s.pos + 8 + c.payload.length = s.pos + (chunkBytes c).length := by
        omega
      rw [this]
  · rw [if_neg hm, if_neg hm]
    have hseek := Stream.seekCurrent_ofNat (⟨s.data, s.pos + 8⟩ : Stream)
      c.payload.length
    have : ({ s with pos := s.pos + 8 } : Stream) = ⟨s.data, s.pos + 8⟩ := rfl
    rw [this, hseek]
    simp only
    by_cases hodd : c.payload.length % 2 = 1
    · rw [if_pos hodd]
      have hseek1 := Stream.seekCurrent_ofNat
        (⟨s.data, s.pos + 8 + c.payload.length⟩ : Stream) 1
      have e1 : ((1 : Nat) : Int) = (1 : Int) := rfl
      rw [e1] at hseek1
      rw [hseek1]
      simp only [if_pos hodd] at hcb
      have : s.pos + 8 + c.payload.length + 1 = s.pos + (chunkBytes c).length := by
        omega
      rw [this]
    · rw [if_neg hodd]
      simp only [if_neg hodd] at hcb
      have : s.pos + 8 + c.payload.length = s.pos + (chunkBytes c).length := by
        omega
      rw [this]

theorem chunksBytes_length_ge (cs : List RChunk) :
    8 * cs.length ≤ (chunksBytes cs).length := by
  induction cs with
  | nil => simp [chunksBytes_nil]
  | cons c cs ih =>
    rw [chunksBytes_cons]
    have h := chunkBytes_length c
    simp only [List.length_append, List.length_cons]
    have h8 : 8 ≤ (chunkBytes c).length := by rw [h]; split <;> omega
    omega

theorem readLoop_skip_all (t : Tag4) (cs : List RChunk) :
    ∀ (fuel : Nat) (s : Stream) (post : List Nat) (wave_end : Nat),
      s.data.drop s.pos = chunksBytes cs ++ post →
      (∀ c ∈ cs, c.Wf) → (∀ c ∈ cs, c.tag ≠ t) →
      wave_end = s.pos + (chunksBytes cs).length →
      cs.length < fuel →
      readLoop (some t) fuel wave_end s =
        (.ok none, { s with pos := wave_end }) := by
  induction cs with
  | nil =>
    intro fuel s post wave_end _ _ _ hend hfuel
    rcases fuel with _ | fuel
    · omega
    · rw [readLoop]
      rw [if_neg (by unfold Stream.stream_position; simp [chunksBytes_nil] at hend; omega)]
      simp [chunksBytes_nil] at hend
      rw [hend]
  | cons c cs ih =>
    intro fuel s post wave_end hA hwf hmiss hend hfuel
    rcases fuel with _ | fuel
    · omega
    · rw [chunksBytes_cons] at hA hend
      have hA' : s.data.drop s.pos = chunkBytes c ++ (chunksBytes cs ++ post) := by
        rw [hA, List.append_assoc]
      simp only [List.length_append] at hend
      have hstep := readLoop_step (some t) fuel wave_end s c
        (chunksBytes cs ++ post) hA' (hwf c (by simp)) (by omega)
      rw [if_neg (by simp; exact fun h => hmiss c (by simp) h.symm)] at hstep
      rw [hstep]
      have hdrop := drop_advance hA'
      exact ih fuel { s with pos := s.pos + (chunkBytes c).length } post wave_end
        hdrop (fun c' hc' => hwf c' (by simp [hc']))
        (fun c' hc' => hmiss c' (by simp [hc']))
        (by simp; omega) (by simp at hfuel; omega)

theorem readLoop_find_after (t : Tag4) (pre : List RChunk) :
    ∀ (c : RChunk) (rest : List RChunk) (fuel : Nat) (s : Stream)
      (post : List Nat) (wave_end : Nat),
      s.data.drop s.pos =
        chunksBytes pre ++ chunkBytes c ++ (chunksBytes rest ++ post) →
      (∀ c' ∈ pre, c'.Wf) → (∀ c' ∈ pre, c'.tag ≠ t) →
      c.Wf → c.tag = t →
      s.pos + (chunksBytes pre).length + (chunkBytes c).length ≤ wave_end →
      pre.length < fuel →
      readLoop (some t) fuel wave_end s =
        (.ok (some (c.tag, c.payload)),
          { s with
              pos := s.pos + (chunksBytes pre).length + (chunkBytes c).length }) := by
  induction pre with
  | nil =>
    intro c rest fuel s post wave_end hA _ _ hwf htag hend hfuel
    rcases fuel with _ | fuel
    · omega
    · simp only [chunksBytes_nil, List.nil_append, List.length_nil,
        Nat.add_zero] at hA hend ⊢
      have hstep := readLoop_step (some t) fuel wave_end s c
        (chunksBytes rest ++ post) (by rw [hA]) hwf hend
      rw [if_pos (by right; rw [htag])] at hstep
      rw [hstep]
  | cons c0 pre ih =>
    intro c rest fuel s post wave_end hA hwfpre hmiss hwf htag hend hfuel
    rcases fuel with _ | fuel
    · omega
    · rw [chunksBytes_cons] at hA hend
      have hA' : s.data.drop s.pos =
          chunkBytes c0 ++
            (chunksBytes pre ++ chunkBytes c ++ (chunksBytes rest ++ post)) := by
        rw [hA]
        simp [List.append_assoc]
      simp only [List.length_append] at hend
      have hstep := readLoop_step (some t) fuel wave_end s c0
        (chunksBytes pre ++ chunkBytes c ++ (chunksBytes rest ++ post)) hA'
        (hwfpre c0 (by simp)) (by omega)
      rw [if_neg (by simp; exact fun h => hmiss c0 (by simp) h.symm)] at hstep
      rw [hstep]
      have hdrop := drop_advance hA'
      have hrec := ih c rest fuel { s with pos := s.pos + (chunkBytes c0).length }
        post wave_end hdrop (fun c' hc' => hwfpre c' (by simp [hc']))
        (fun c' hc' => hmiss c' (by simp [hc'])) hwf htag
        (by simp; omega) (by simp at hfuel; omega)
      rw [hrec]
      simp only [List.length_append]
      have e : s.pos + (chunkBytes c0).length + (chunksBytes pre).length +
          (chunkBytes c).length =
          s.pos + ((chunkBytes c0).length + (chunksBytes pre).length) +
            (chunkBytes c).length := by omega
      rw [e, chunksBytes_cons]
      simp [List.length_append]

/-- Construction of a reader over a container that fills the stream from
offset 0 (possibly followed by trailing bytes the reader never sees). -/
theorem WaveCursor.new_containerBytes (cs : List RChunk) (post : List Nat)
    (h32 : 4 + (chunksBytes cs).length < 4294967296) :
    WaveCursor.new ⟨containerBytes cs ++ post, 0⟩ =
      .ok { head := ⟨riffTag, 4 + (chunksBytes cs).length⟩,
            base_cursor := ⟨containerBytes cs ++ post, 12⟩,
            wave_start := 0, wave_end := 12 + (chunksBytes cs).length,
            first_chunk_pos := 12 } := by
  have hA : (containerBytes cs ++ post).drop 0 =
      riffTag.bytes ++ toLe32 (4 + (chunksBytes cs).length) ++
        (waveTag.bytes ++ (chunksBytes cs ++ post)) := by
    rw [List.drop_zero, containerBytes]
    simp [List.append_assoc]
  have hparse := ChunkHead.parse_at (s := ⟨containerBytes cs ++ post, 0⟩) hA h32
  have hdrop8 : (containerBytes cs ++ post).drop 8 =
      waveTag.bytes ++ (chunksBytes cs ++ post) := by
    have h12 : (containerBytes cs ++ post).drop 0 =
        (riffTag.bytes ++ toLe32 (4 + (chunksBytes cs).length)) ++
          (waveTag.bytes ++ (chunksBytes cs ++ post)) := by
      rw [hA]
    have := drop_advance h12
    simpa using this
  have hlen8 : 8 ≤ (containerBytes cs ++ post).length := by
    have hh := congrArg List.length hdrop8
    simp only [List.length_drop] at hh
    have h4 : 4 ≤ (waveTag.bytes ++ (chunksBytes cs ++ post)).length := by
      simp [Tag4.bytes]
    omega
  have hread := Stream.read_exact_at (s := ⟨containerBytes cs ++ post, 8⟩)
    hdrop8 (by show 8 ≤ (containerBytes cs ++ post).length; omega)
  have e4 : (Tag4.bytes waveTag).length = 4 := rfl
  rw [e4] at hread
  have hriff : read_riff_head ⟨containerBytes cs ++ post, 0⟩ =
      (.ok ⟨riffTag, 4 + (chunksBytes cs).length⟩,
        ⟨containerBytes cs ++ post, 12⟩) := by
    unfold read_riff_head
    simp only [hparse, Nat.zero_add, hread]
    rw [if_neg (by simp)]
    rw [if_neg (by have := chunksBytes_length_even cs; omega)]
  unfold WaveCursor.new
  simp only [hriff, Stream.stream_position]
  rw [if_pos (by simp only [CHUNK_HEAD_SZ]; omega)]
  simp only [CHUNK_HEAD_SZ]
  have e : 0 + 8 + (4 + (chunksBytes cs).length) =
      12 + (chunksBytes cs).length := by omega
  rw [e]

/-! Cue-point codec round-trip facts. -/

theorem CuePoint.parse_as_bytes {c : CuePoint} (h : c.Wf) :
    CuePoint.parse c.as_bytes = c := by
  obtain ⟨h1, h2, h3, h4, h5⟩ := h
  rcases c with ⟨id, position, dtag, cstart, bstart, soff⟩
  rcases dtag with ⟨d0, d1, d2, d3⟩
  simp only [as_bytes, Tag4.bytes, toLe32, List.cons_append, List.nil_append]
  simp only [parse, List.take, List.drop, fromLe32, tag4OfList]
  simp only [CuePoint.mk.injEq] at *
  refine ⟨by omega, by omega, trivial, by omega, by omega, by omega⟩

theorem chunksExact24_flatten_as_bytes (cues : List CuePoint) :
    chunksExact24 ((cues.map CuePoint.as_bytes).flatten) =
      cues.map CuePoint.as_bytes := by
  induction cues with
  | nil => exact chunksExact24_eq_nil (by simp)
  | cons c cues ih =>
    simp only [List.map_cons, List.flatten_cons]
    have h24 : 24 ≤ (c.as_bytes ++ (cues.map CuePoint.as_bytes).flatten).length := by
      simp [CuePoint.cue_record_length]
    rw [chunksExact24_eq_cons h24,
      List.take_left' (CuePoint.cue_record_length c),
      List.drop_left' (CuePoint.cue_record_length c), ih]

/-- Payload of a `cue ` chunk for a list of cue points: the 4-byte
little-endian record count followed by the 24-byte records. -/
def cueChunkPayload (cues : List CuePoint) : List Nat :=
  toLe32 cues.length ++ (cues.map CuePoint.as_bytes).flatten

theorem parse_cue_points_roundtrip (cues : List CuePoint)
    (h : ∀ c ∈ cues, c.Wf) :
    parse_cue_points (cueChunkPayload cues) = some cues := by
  unfold parse_cue_points cueChunkPayload
  rw [if_pos (by simp [toLe32])]
  rw [List.drop_left' (toLe32_length cues.length)]
  rw [chunksExact24_flatten_as_bytes, List.map_map]
  rw [show List.map (CuePoint.parse ∘ CuePoint.as_bytes) cues = cues from ?_]
  induction cues with
  | nil => rfl
  | cons c cues ih =>
    simp only [List.map_cons, Function.comp_apply]
    rw [CuePoint.parse_as_bytes (h c (by simp)), ih (fun c' hc' => h c' (by simp [hc']))]

/-- Specification-side description of the cue decoder (from the claim's
words): skip the 4-byte count, then take every complete 24-byte record
that fits, ignoring trailing partial bytes. -/
def cueRecordsSpec (l : List Nat) : List CuePoint :=
  if _h : 24 ≤ l.length then
    CuePoint.parse (l.take 24) :: cueRecordsSpec (l.drop 24)
  else []
termination_by l.length
decreasing_by simp; omega

theorem chunksExact24_map_parse :
    ∀ (n : Nat) (l : List Nat), l.length ≤ n →
      (chunksExact24 l).map CuePoint.parse = cueRecordsSpec l := by
  intro n
  induction n with
  | zero =>
    intro l h
    have hl : l = [] := List.eq_nil_of_length_eq_zero (by omega)
    subst hl
    rw [chunksExact24_eq_nil (by simp), cueRecordsSpec]
    simp
  | succ m ih =>
    intro l h
    by_cases h24 : 24 ≤ l.length
    · rw [chunksExact24_eq_cons h24, cueRecordsSpec, dif_pos h24]
      simp only [List.map_cons]
      rw [ih (l.drop 24) (by simp; omega)]
    · rw [chunksExact24_eq_nil (by omega), cueRecordsSpec, dif_neg h24]
      simp

/-! Reads and seeks never change the underlying bytes; this backs the
cursor-restoration claim. -/

theorem Stream.read_exact_data (s : Stream) (n : Nat) :
    ((s.read_exact n).2).data = s.data := by
  unfold Stream.read_exact
  split <;> rfl

theorem Stream.seekCurrent_data (s : Stream) (d : Int) :
    ((s.seekCurrent d).2).data = s.data := by
  unfold Stream.seekCurrent
  split <;> rfl

theorem ChunkHead.parse_data (s : Stream) :
    ((ChunkHead.parse s).2).data = s.data := by
  unfold ChunkHead.parse
  split
  next e s1 heq =>
    have hh := Stream.read_exact_data s 4
    rw [heq] at hh
    exact hh
  next b s1 heq =>
    have e1 : s1.data = s.data := by
      have hh := Stream.read_exact_data s 4
      rw [heq] at hh
      exact hh
    split
    next e s2 heq2 =>
      have hh := Stream.read_exact_data s1 4
      rw [heq2] at hh
      exact hh.trans e1
    next b2 s2 heq2 =>
      have hh := Stream.read_exact_data s1 4
      rw [heq2] at hh
      exact hh.trans e1

theorem read_riff_head_data (s : Stream) :
    ((read_riff_head s).2).data = s.data := by
  unfold read_riff_head
  split
  next e s1 heq =>
    have hh := ChunkHead.parse_data s
    rw [heq] at hh
    exact hh
  next head s1 heq =>
    have e1 : s1.data = s.data := by
      have hh := ChunkHead.parse_data s
      rw [heq] at hh
      exact hh
    split
    next e s2 heq2 =>
      have hh := Stream.read_exact_data s1 4
      rw [heq2] at hh
      exact hh.trans e1
    next wave_id s2 heq2 =>
      have e2 : s2.data = s.data := by
        have hh := Stream.read_exact_data s1 4
        rw [heq2] at hh
        exact hh.trans e1
      split
      · exact e2
      · split
        · exact e2
        · exact e2

theorem readLoop_data :
    ∀ (fuel : Nat) (tagFilter : Option Tag4) (wave_end : Nat) (s : Stream),
      ((readLoop tagFilter fuel wave_end s).2).data = s.data := by
  intro fuel
  induction fuel with
  | zero => intro tagFilter wave_end s; rfl
  | succ n ih =>
    intro tagFilter wave_end s
    rw [readLoop]
    split
    · split
      next e s1 heq =>
        have hh := ChunkHead.parse_data s
        rw [heq] at hh
        exact hh
      next chunk_head s1 heq =>
        have e1 : s1.data = s.data := by
          have hh := ChunkHead.parse_data s
          rw [heq] at hh
          exact hh
        split
        · dsimp only
          split
          next e s2 heq2 =>
            have hh := Stream.read_exact_data s1 chunk_head.size
            rw [heq2] at hh
            exact hh.trans e1
          next buffer s2 heq2 =>
            have e2 : s2.data = s.data := by
              have hh := Stream.read_exact_data s1 chunk_head.size
              rw [heq2] at hh
              exact hh.trans e1
            split
            · split
              next e s3 heq3 =>
                have hh := Stream.seekCurrent_data s2 1
                rw [heq3] at hh
                exact hh.trans e2
              next u s3 heq3 =>
                have hh := Stream.seekCurrent_data s2 1
                rw [heq3] at hh
                exact hh.trans e2
            · exact e2
        · dsimp only
          split
          next e s2 heq2 =>
            have hh := Stream.seekCurrent_data s1 (chunk_head.size : Int)
            rw [heq2] at hh
            exact hh.trans e1
          next u s2 heq2 =>
            have e2 : s2.data = s.data := by
              have hh := Stream.seekCurrent_data s1 (chunk_head.size : Int)
              rw [heq2] at hh
              exact hh.trans e1
            split
            · split
              next e s3 heq3 =>
                have hh := Stream.seekCurrent_data s2 1
                rw [heq3] at hh
                exact hh.trans e2
              next u2 s3 heq3 =>
                have e3 : s3.data = s.data := by
                  have hh := Stream.seekCurrent_data s2 1
                  rw [heq3] at hh
                  exact hh.trans e2
                exact (ih tagFilter wave_end s3).trans e3
            · exact (ih tagFilter wave_end s2).trans e2
    · rfl

/-- Fields of a freshly constructed reader: the base cursor holds the
same bytes, and `wave_start` is the construction-time offset. -/
theorem WaveCursor.new_fields {s : Stream} {wc : WaveCursor}
    (h : WaveCursor.new s = .ok wc) :
    wc.base_cursor.data = s.data ∧ wc.wave_start = s.pos := by
  unfold WaveCursor.new at h
  rcases h1 : read_riff_head s with ⟨r1, s1⟩
  have e1 : s1.data = s.data := by
    have hh := read_riff_head_data s
    rw [h1] at hh
    exact hh
  rw [h1] at h
  cases r1 with
  | error e => exact absurd h (by simp)
  | ok head =>
    simp only at h
    split at h
    · have hwc := Except.ok.inj h
      rw [← hwc]
      exact ⟨e1, rfl⟩
    · exact absurd h (by simp)

/-- Operations a caller may interleave on a reader before restoring the
cursor: filtered/unfiltered chunk reads and resets. -/
inductive ReaderOp where
  | read (tagFilter : Option Tag4)
  | reset
deriving Repr, DecidableEq

/-- Application of one reader operation (the result of a read is
discarded; only the cursor state matters here). -/
def applyOp (wc : WaveCursor) : ReaderOp → WaveCursor
  | .read t => (wc.read_next_chunk t).2
  | .reset => wc.reset

/-- Application of a sequence of reader operations. -/
def applyOps (wc : WaveCursor) (ops : List ReaderOp) : WaveCursor :=
  ops.foldl applyOp wc

theorem applyOp_inv (wc : WaveCursor) (op : ReaderOp) :
    (applyOp wc op).base_cursor.data = wc.base_cursor.data ∧
      (applyOp wc op).wave_start = wc.wave_start := by
  cases op with
  | read t =>
    unfold applyOp WaveCursor.read_next_chunk
    rcases h : readLoop t (wc.wave_end - wc.base_cursor.pos + 1)
        wc.wave_end wc.base_cursor with ⟨r, s⟩
    have e : s.data = wc.base_cursor.data := by
      have hh := readLoop_data (wc.wave_end - wc.base_cursor.pos + 1) t
        wc.wave_end wc.base_cursor
      rw [h] at hh
      exact hh
    simp only [h]
    exact ⟨e, trivial⟩
  | reset => exact ⟨rfl, rfl⟩

theorem applyOps_inv (ops : List ReaderOp) :
    ∀ (wc : WaveCursor),
      (applyOps wc ops).base_cursor.data = wc.base_cursor.data ∧
        (applyOps wc ops).wave_start = wc.wave_start := by
  induction ops with
  | nil => intro wc; exact ⟨rfl, rfl⟩
  | cons op ops ih =>
    intro wc
    have h1 := applyOp_inv wc op
    have h2 := ih (applyOp wc op)
    unfold applyOps at h2 ⊢
    simp only [List.foldl_cons]
    exact ⟨h2.1.trans h1.1, h2.2.trans h1.2⟩

theorem containerBytes_drop12 (cs : List RChunk) :
    (containerBytes cs).drop 12 = chunksBytes cs := by
  unfold containerBytes
  have e : riffTag.bytes ++ toLe32 (4 + (chunksBytes cs).length) ++
      waveTag.bytes ++ chunksBytes cs =
      (riffTag.bytes ++ toLe32 (4 + (chunksBytes cs).length) ++
        waveTag.bytes) ++ chunksBytes cs := by
    simp [List.append_assoc]
  rw [e, List.drop_left' (by simp [Tag4.bytes, toLe32])]

/-- C5: for every accepted container and any sequence of chunk reads and
resets, `restore_cursor` hands back the underlying stream at exactly the
offset (and with exactly the bytes) it had when the reader was built. -/
theorem C5_restore_cursor_exact (s : Stream) {wc : WaveCursor}
    (hnew : WaveCursor.new s = .ok wc) (ops : List ReaderOp) :
    (applyOps wc ops).restore_cursor = s := by
  obtain ⟨hdata, hstart⟩ := WaveCursor.new_fields hnew
  obtain ⟨hdata2, hstart2⟩ := applyOps_inv ops wc
  have h1 : (applyOps wc ops).base_cursor.data = s.data := hdata2.trans hdata
  have h2 : (applyOps wc ops).wave_start = s.pos := hstart2.trans hstart
  unfold WaveCursor.restore_cursor Stream.seekStart
  rcases s with ⟨d, p⟩
  simp only at h1 h2
  rw [h1, h2]

/-- Witness container: `RIFF` + size 28 + `WAVE` + one 20-byte `data`
chunk. -/
def wDataChunk : RChunk := ⟨dataTag, List.replicate 20 0⟩

/-- Witness container bytes. -/
def wContainer : List Nat := containerBytes [wDataChunk]

/-- Witness reader over `wContainer`. -/
def wCursor : WaveCursor :=
  { head := ⟨riffTag, 32⟩, base_cursor := ⟨wContainer, 12⟩,
    wave_start := 0, wave_end := 40, first_chunk_pos := 12 }

theorem C5_witness :
    (applyOps wCursor [ReaderOp.read none, ReaderOp.reset]).restore_cursor =
      ⟨wContainer, 0⟩ :=
  C5_restore_cursor_exact ⟨wContainer, 0⟩ (by rfl)
    [ReaderOp.read none, ReaderOp.reset]

/-- C6: a filtered read over a well-formed container whose chunks never
match the filter returns the explicit empty result `Ok(None)` — not an
error — and leaves the stream at `wave_end = wave_start + 8 + declared
size`. -/
theorem C6_read_next_chunk_not_found (cs : List RChunk) (t : Tag4)
    (h32 : 4 + (chunksBytes cs).length < 4294967296)
    (hwf : ∀ c ∈ cs, c.Wf) (hmiss : ∀ c ∈ cs, c.tag ≠ t)
    {wc : WaveCursor}
    (hnew : WaveCursor.new ⟨containerBytes cs, 0⟩ = .ok wc) :
    (wc.read_next_chunk (some t)).1 = .ok none ∧
      ((wc.read_next_chunk (some t)).2).base_cursor.pos =
        wc.wave_start + 8 + wc.head.size ∧
      wc.wave_start + 8 + wc.head.size = wc.wave_end := by
  have hval := WaveCursor.new_containerBytes cs [] h32
  rw [List.append_nil] at hval
  rw [hval] at hnew
  have hwc := Except.ok.inj hnew
  subst hwc
  have hA : (⟨containerBytes cs, 12⟩ : Stream).data.drop
      (⟨containerBytes cs, 12⟩ : Stream).pos = chunksBytes cs ++ [] := by
    rw [List.append_nil]
    exact containerBytes_drop12 cs
  have hfuel : cs.length < (chunksBytes cs).length + 1 := by
    have := chunksBytes_length_ge cs
    omega
  have hloop := readLoop_skip_all t cs ((chunksBytes cs).length + 1)
    ⟨containerBytes cs, 12⟩ [] (12 + (chunksBytes cs).length) hA hwf hmiss
    (by simp) hfuel
  unfold WaveCursor.read_next_chunk
  simp only
  have efuel : 12 + (chunksBytes cs).length - 12 + 1 =
      (chunksBytes cs).length + 1 := by omega
  rw [efuel, hloop]
  refine ⟨rfl, ?_, ?_⟩ <;> simp <;> omega

theorem C6_witness :
    ((wCursor.read_next_chunk (some cueTag)).1 = .ok none ∧
      ((wCursor.read_next_chunk (some cueTag)).2).base_cursor.pos =
        wCursor.wave_start + 8 + wCursor.head.size ∧
      wCursor.wave_start + 8 + wCursor.head.size = wCursor.wave_end) :=
  C6_read_next_chunk_not_found [wDataChunk] cueTag (by decide)
    (by decide) (by decide) (by rfl)

/-- C9 counterexample: on a buffer shorter than 4 bytes the Rust body
`&bytes[4..]` panics (modelled as `none`) instead of returning the empty
record list, so the claim's "for every byte buffer" fails. -/
theorem C9_counterexample :
    parse_cue_points [] = none ∧ parse_cue_points [] ≠ some [] := by
  exact ⟨rfl, by decide⟩

/-- C9 (amended): for every byte buffer holding at least the 4-byte
count, `parse_cue_points` skips those 4 bytes and decodes exactly the
complete 24-byte records that fit, silently ignoring trailing partial
bytes. -/
theorem C9_parse_cue_points_lenient (bytes : List Nat)
    (h : 4 ≤ bytes.length) :
    parse_cue_points bytes = some (cueRecordsSpec (bytes.drop 4)) := by
  unfold parse_cue_points
  rw [if_pos h, chunksExact24_map_parse (bytes.drop 4).length (bytes.drop 4)
    le_rfl]

theorem C9_witness :
    parse_cue_points [9, 9, 9, 9, 1, 2, 3] =
      some (cueRecordsSpec ([9, 9, 9, 9, 1, 2, 3].drop 4)) :=
  C9_parse_cue_points_lenient [9, 9, 9, 9, 1, 2, 3] (by decide)

/-- C2: encoding cue points with a count prefix decodes back to the same
list, both directly and after being placed as a `cue ` chunk anywhere
among other top-level chunks of a container and re-read through the
filtered chunk reader. -/
theorem C2_cue_roundtrip (cues : List CuePoint) (pre postc : List RChunk)
    (hwfcues : ∀ c ∈ cues, c.Wf)
    (hpre : ∀ c ∈ pre, c.Wf)
    (hmiss : ∀ c ∈ pre, c.tag ≠ cueTag)
    (h32 : 4 + (chunksBytes
      (pre ++ ⟨cueTag, cueChunkPayload cues⟩ :: postc)).length < 4294967296)
    {wc : WaveCursor}
    (hnew : WaveCursor.new
      ⟨containerBytes (pre ++ ⟨cueTag, cueChunkPayload cues⟩ :: postc), 0⟩ =
        .ok wc) :
    parse_cue_points (cueChunkPayload cues) = some cues ∧
      (wc.read_next_chunk (some cueTag)).1 =
        .ok (some (cueTag, cueChunkPayload cues)) := by
  refine ⟨parse_cue_points_roundtrip cues hwfcues, ?_⟩
  have hval := WaveCursor.new_containerBytes
    (pre ++ ⟨cueTag, cueChunkPayload cues⟩ :: postc) [] h32
  rw [List.append_nil] at hval
  rw [hval] at hnew
  have hwc := Except.ok.inj hnew
  subst hwc
  have hsplit : chunksBytes (pre ++ ⟨cueTag, cueChunkPayload cues⟩ :: postc) =
      chunksBytes pre ++ chunkBytes ⟨cueTag, cueChunkPayload cues⟩ ++
        chunksBytes postc := by
    rw [chunksBytes_append, chunksBytes_cons, List.append_assoc]
  have hlensplit : (chunksBytes
      (pre ++ ⟨cueTag, cueChunkPayload cues⟩ :: postc)).length =
      (chunksBytes pre).length +
        (chunkBytes ⟨cueTag, cueChunkPayload cues⟩).length +
        (chunksBytes postc).length := by
    rw [hsplit]
    simp [List.length_append]
    omega
  have hcwflen : (chunkBytes ⟨cueTag, cueChunkPayload cues⟩).length <
      4294967296 := by omega
  have hcwf : (⟨cueTag, cueChunkPayload cues⟩ : RChunk).Wf := by
    show (cueChunkPayload cues).length < 4294967296
    have hcl := chunkBytes_length ⟨cueTag, cueChunkPayload cues⟩
    dsimp only at hcl
    split at hcl <;> omega
  have hA : (⟨containerBytes
      (pre ++ ⟨cueTag, cueChunkPayload cues⟩ :: postc), 12⟩ : Stream).data.drop
      (⟨containerBytes (pre ++ ⟨cueTag, cueChunkPayload cues⟩ :: postc), 12⟩ :
        Stream).pos =
      chunksBytes pre ++ chunkBytes ⟨cueTag, cueChunkPayload cues⟩ ++
        (chunksBytes postc ++ []) := by
    rw [List.append_nil]
    show (containerBytes
      (pre ++ ⟨cueTag, cueChunkPayload cues⟩ :: postc)).drop 12 = _
    rw [containerBytes_drop12, hsplit]
  have hfuel : pre.length <
      (chunksBytes (pre ++ ⟨cueTag, cueChunkPayload cues⟩ :: postc)).length +
        1 := by
    have hge := chunksBytes_length_ge
      (pre ++ ⟨cueTag, cueChunkPayload cues⟩ :: postc)
    simp only [List.length_append, List.length_cons] at hge
    omega
  have hloop := readLoop_find_after cueTag pre
    ⟨cueTag, cueChunkPayload cues⟩ postc
    ((chunksBytes (pre ++ ⟨cueTag, cueChunkPayload cues⟩ :: postc)).length + 1)
    ⟨containerBytes (pre ++ ⟨cueTag, cueChunkPayload cues⟩ :: postc), 12⟩
    [] (12 + (chunksBytes
      (pre ++ ⟨cueTag, cueChunkPayload cues⟩ :: postc)).length)
    hA hpre hmiss hcwf rfl (by simp only; omega) hfuel
  unfold WaveCursor.read_next_chunk
  simp only
  have efuel : 12 + (chunksBytes
      (pre ++ ⟨cueTag, cueChunkPayload cues⟩ :: postc)).length - 12 + 1 =
      (chunksBytes (pre ++ ⟨cueTag, cueChunkPayload cues⟩ :: postc)).length +
        1 := by omega
  rw [efuel, hloop]

theorem C2_witness :
    parse_cue_points (cueChunkPayload [CuePoint.from_sample_offset 1 20]) =
        some [CuePoint.from_sample_offset 1 20] ∧
      ((WaveCursor.mk ⟨riffTag, 4 + (chunksBytes
          [wDataChunk, ⟨cueTag, cueChunkPayload
            [CuePoint.from_sample_offset 1 20]⟩]).length⟩
        ⟨containerBytes [wDataChunk, ⟨cueTag, cueChunkPayload
          [CuePoint.from_sample_offset 1 20]⟩], 12⟩
        0
        (12 + (chunksBytes [wDataChunk, ⟨cueTag, cueChunkPayload
          [CuePoint.from_sample_offset 1 20]⟩]).length)
        12).read_next_chunk (some cueTag)).1 =
        .ok (some (cueTag,
          cueChunkPayload [CuePoint.from_sample_offset 1 20])) :=
  C2_cue_roundtrip [CuePoint.from_sample_offset 1 20] [wDataChunk] []
    (by decide) (by decide) (by decide) (by decide) (by rfl)

/-! Symbolic execution of the append engine. -/

/-- Whole-stream container: `RIFF` head whose declared size covers
exactly the rest of the stream, i.e. total length `8 + S` with
`S = 4 + body.length`. -/
def wholeContainer (body : List Nat) : List Nat :=
  riffTag.bytes ++ toLe32 (4 + body.length) ++ waveTag.bytes ++ body

theorem wholeContainer_length (body : List Nat) :
    (wholeContainer body).length = 12 + body.length := by
  simp [wholeContainer, Tag4.bytes, toLe32]
  omega

theorem read_riff_head_at {s : Stream} {n : Nat} {R : List Nat}
    (hA : s.data.drop s.pos =
      riffTag.bytes ++ toLe32 n ++ (waveTag.bytes ++ R))
    (hn : n < 4294967296) (heven : n % 2 = 0) :
    read_riff_head s = (.ok ⟨riffTag, n⟩, { s with pos := s.pos + 12 }) := by
  have hparse := ChunkHead.parse_at (t := riffTag) hA hn
  have hd8 : s.data.drop (s.pos + 8) = waveTag.bytes ++ R := by
    have h12 : s.data.drop s.pos =
        (riffTag.bytes ++ toLe32 n) ++ (waveTag.bytes ++ R) := by
      rw [hA, List.append_assoc]
    have hd := drop_advance h12
    have e8 : (riffTag.bytes ++ toLe32 n).length = 8 := by
      simp [Tag4.bytes, toLe32]
    rw [e8] at hd
    exact hd
  have hlen : s.pos + 8 ≤ s.data.length := by
    have hh := congrArg List.length hA
    simp only [List.length_drop, List.length_append, Tag4.bytes, toLe32,
      List.length_cons, List.length_nil] at hh
    omega
  have hread := Stream.read_exact_at (s := ⟨s.data, s.pos + 8⟩) hd8
    (by show s.pos + 8 ≤ s.data.length; omega)
  have e4 : (Tag4.bytes waveTag).length = 4 := rfl
  rw [e4] at hread
  unfold read_riff_head
  have e88 : s.pos + 8 + 4 = s.pos + 12 := by omega
  simp only [hparse, hread, e88]
  rw [if_neg (by simp)]
  rw [if_neg (by omega)]

theorem Stream.write_all_within {s : Stream} (bytes : List Nat)
    (h : s.pos ≤ s.data.length) :
    s.write_all bytes =
      ⟨s.data.take s.pos ++ bytes ++ s.data.drop (s.pos + bytes.length),
        s.pos + bytes.length⟩ := by
  unfold Stream.write_all
  rw [Nat.sub_eq_zero_of_le h]
  simp

theorem Stream.write_all_append {s : Stream} (bytes : List Nat)
    (h : s.pos = s.data.length) :
    s.write_all bytes = ⟨s.data ++ bytes, s.pos + bytes.length⟩ := by
  rw [Stream.write_all_within bytes (by omega), h, List.take_length,
    List.drop_eq_nil_of_le (by simp), List.append_nil]

theorem foldl_write_cues :
    ∀ (cues : List CuePoint) (s : Stream), s.pos = s.data.length →
      cues.foldl (fun s cue => s.write_all cue.as_bytes) s =
        ⟨s.data ++ (cues.map CuePoint.as_bytes).flatten,
          s.pos + 24 * cues.length⟩ := by
  intro cues
  induction cues with
  | nil =>
    intro s h
    simp
  | cons c cues ih =>
    intro s h
    simp only [List.foldl_cons, List.map_cons, List.flatten_cons]
    rw [Stream.write_all_append c.as_bytes h]
    rw [ih ⟨s.data ++ c.as_bytes, s.pos + c.as_bytes.length⟩
      (by simp only [List.length_append, CuePoint.cue_record_length]; omega)]
    simp only [List.append_assoc, List.length_cons, CuePoint.cue_record_length]
    have e : s.pos + 24 + 24 * cues.length = s.pos + 24 * (cues.length + 1) := by
      omega
    rw [e]

theorem flatten_as_bytes_length (cues : List CuePoint) :
    ((cues.map CuePoint.as_bytes).flatten).length = 24 * cues.length := by
  induction cues with
  | nil => simp
  | cons c cs ih =>
    simp only [List.map_cons, List.flatten_cons, List.length_append, ih,
      CuePoint.cue_record_length, List.length_cons]
    omega

/-- Frame effect of `append_cue_chunk` on a whole-stream container:
size field bumped by `8 + 4 + 24*n`, `cue ` head + count + records
appended at the original end, everything else untouched. -/
theorem append_cue_frame (cues : List CuePoint) (body : List Nat)
    (heven : body.length % 2 = 0)
    (hfit : cues.length * 24 + 4 + 8 + (4 + body.length) < 4294967296) :
    (append_cue_chunk ⟨wholeContainer body, 0⟩ cues).1 = .ok () ∧
      (append_cue_chunk ⟨wholeContainer body, 0⟩ cues).2.data =
        riffTag.bytes ++
          toLe32 ((4 + body.length) + (8 + (4 + 24 * cues.length))) ++
          waveTag.bytes ++ body ++
          ChunkHead.as_bytes ⟨cueTag, 4 + 24 * cues.length⟩ ++
          toLe32 cues.length ++ (cues.map CuePoint.as_bytes).flatten ∧
      (append_cue_chunk ⟨wholeContainer body, 0⟩ cues).2.data.length =
        (wholeContainer body).length + (8 + 4 + 24 * cues.length) := by
  have hA : (⟨wholeContainer body, 0⟩ : Stream).data.drop
      (⟨wholeContainer body, 0⟩ : Stream).pos =
      riffTag.bytes ++ toLe32 (4 + body.length) ++ (waveTag.bytes ++ body) := by
    show (wholeContainer body).drop 0 = _
    rw [List.drop_zero, wholeContainer, List.append_assoc]
  have hriff := read_riff_head_at hA (by omega) (by omega)
  unfold append_cue_chunk
  rw [hriff]
  simp only [Stream.stream_position]
  rw [if_pos (by simp only [CUE_SZ]; omega)]
  rw [if_pos (by simp only [CUE_SZ, CHUNK_HEAD_SZ]; omega)]
  simp only [Stream.seekStart]
  have hw1 : (⟨wholeContainer body, 0 + 12 - 8⟩ : Stream).write_all
      (toLe32 (cues.length * CUE_SZ + 4 + CHUNK_HEAD_SZ + (4 + body.length))) =
      ⟨riffTag.bytes ++
          toLe32 (cues.length * CUE_SZ + 4 + CHUNK_HEAD_SZ + (4 + body.length)) ++
          (waveTag.bytes ++ body), 8⟩ := by
    rw [Stream.write_all_within _
      (by show 0 + 12 - 8 ≤ (wholeContainer body).length
          rw [wholeContainer_length]; omega)]
    have e1 : (wholeContainer body).take (0 + 12 - 8) = riffTag.bytes := by
      show (wholeContainer body).take 4 = riffTag.bytes
      rw [wholeContainer, List.append_assoc, List.append_assoc]
      exact List.take_left' rfl
    have e2 : (wholeContainer body).drop (0 + 12 - 8 +
        (toLe32 (cues.length * CUE_SZ + 4 + CHUNK_HEAD_SZ +
          (4 + body.length))).length) =
        waveTag.bytes ++ body := by
      show (wholeContainer body).drop 8 = waveTag.bytes ++ body
      rw [wholeContainer]
      have e : riffTag.bytes ++ toLe32 (4 + body.length) ++ waveTag.bytes ++
          body = (riffTag.bytes ++ toLe32 (4 + body.length)) ++
            (waveTag.bytes ++ body) := by
        simp [List.append_assoc]
      rw [e]
      exact List.drop_left' (by simp [Tag4.bytes, toLe32])
    rw [e1, e2]
    simp [List.append_assoc, toLe32_length]
  rw [hw1]
  have hseek := Stream.seekCurrent_ofNat
    (⟨riffTag.bytes ++
        toLe32 (cues.length * CUE_SZ + 4 + CHUNK_HEAD_SZ + (4 + body.length)) ++
        (waveTag.bytes ++ body), 8⟩ : Stream) (4 + body.length)
  rw [hseek]
  simp only
  have hlen1 : (riffTag.bytes ++
      toLe32 (cues.length * CUE_SZ + 4 + CHUNK_HEAD_SZ + (4 + body.length)) ++
      (waveTag.bytes ++ body)).length = 12 + body.length := by
    simp [Tag4.bytes, toLe32]
    omega
  have hw2 := Stream.write_all_append
    (s := ⟨riffTag.bytes ++
        toLe32 (cues.length * CUE_SZ + 4 + CHUNK_HEAD_SZ + (4 + body.length)) ++
        (waveTag.bytes ++ body), 8 + (4 + body.length)⟩)
    (ChunkHead.as_bytes ⟨cueTag, cues.length * CUE_SZ + 4⟩)
    (by show 8 + (4 + body.length) = _; rw [hlen1]; omega)
  rw [hw2]
  have hw3 := Stream.write_all_append
    (s := ⟨(riffTag.bytes ++
        toLe32 (cues.length * CUE_SZ + 4 + CHUNK_HEAD_SZ + (4 + body.length)) ++
        (waveTag.bytes ++ body)) ++
        ChunkHead.as_bytes ⟨cueTag, cues.length * CUE_SZ + 4⟩,
        8 + (4 + body.length) + (ChunkHead.as_bytes
          ⟨cueTag, cues.length * CUE_SZ + 4⟩).length⟩)
    (toLe32 cues.length)
    (by
      show 8 + (4 + body.length) + _ = _
      simp only [List.length_append, hlen1]
      omega)
  rw [hw3]
  have hfold := foldl_write_cues cues
    ⟨((riffTag.bytes ++
        toLe32 (cues.length * CUE_SZ + 4 + CHUNK_HEAD_SZ + (4 + body.length)) ++
        (waveTag.bytes ++ body)) ++
        ChunkHead.as_bytes ⟨cueTag, cues.length * CUE_SZ + 4⟩) ++
        toLe32 cues.length,
      8 + (4 + body.length) +
        (ChunkHead.as_bytes ⟨cueTag, cues.length * CUE_SZ + 4⟩).length +
        (toLe32 cues.length).length⟩
    (by
      show 8 + (4 + body.length) + _ + _ = _
      simp only [List.length_append, hlen1]
      omega)
  rw [hfold]
  refine ⟨by trivial, ?_, ?_⟩
  · show ((riffTag.bytes ++
        toLe32 (cues.length * CUE_SZ + 4 + CHUNK_HEAD_SZ + (4 + body.length)) ++
        (waveTag.bytes ++ body)) ++
        ChunkHead.as_bytes ⟨cueTag, cues.length * CUE_SZ + 4⟩ ++
        toLe32 cues.length) ++ (cues.map CuePoint.as_bytes).flatten = _
    have e32 : cues.length * CUE_SZ + 4 + CHUNK_HEAD_SZ + (4 + body.length) =
        (4 + body.length) + (8 + (4 + 24 * cues.length)) := by
      simp only [CUE_SZ, CHUNK_HEAD_SZ]
      omega
    have ehd : cues.length * CUE_SZ + 4 = 4 + 24 * cues.length := by
      simp only [CUE_SZ]
      omega
    rw [e32, ehd]
    simp [List.append_assoc]
  · show ((riffTag.bytes ++
        toLe32 (cues.length * CUE_SZ + 4 + CHUNK_HEAD_SZ + (4 + body.length)) ++
        (waveTag.bytes ++ body)) ++
        ChunkHead.as_bytes ⟨cueTag, cues.length * CUE_SZ + 4⟩ ++
        toLe32 cues.length ++ (cues.map CuePoint.as_bytes).flatten).length = _
    have hflat := flatten_as_bytes_length cues
    simp only [List.length_append, hlen1, hflat, ChunkHead.as_bytes,
      Tag4.bytes, toLe32, List.length_cons, List.length_nil,
      wholeContainer_length]
    simp
    omega

/-- C4: appending `n` cue points to a container that fills the whole
stream grows it by exactly `8 + 4 + 24*n` bytes, bumps the RIFF size
field by the same amount, appends the new chunk head and payload at the
original end, and leaves every other pre-existing byte unchanged. -/
theorem C4_append_cue_frame (cues : List CuePoint) (body : List Nat)
    (heven : body.length % 2 = 0)
    (hfit : cues.length * 24 + 4 + 8 + (4 + body.length) < 4294967296) :
    (append_cue_chunk ⟨wholeContainer body, 0⟩ cues).1 = .ok () ∧
      (append_cue_chunk ⟨wholeContainer body, 0⟩ cues).2.data =
        riffTag.bytes ++
          toLe32 ((4 + body.length) + (8 + (4 + 24 * cues.length))) ++
          waveTag.bytes ++ body ++
          ChunkHead.as_bytes ⟨cueTag, 4 + 24 * cues.length⟩ ++
          toLe32 cues.length ++ (cues.map CuePoint.as_bytes).flatten ∧
      (append_cue_chunk ⟨wholeContainer body, 0⟩ cues).2.data.length =
        (wholeContainer body).length + (8 + 4 + 24 * cues.length) :=
  append_cue_frame cues body heven hfit

/-- Wire form of one `ltxt` sub-chunk as written by `append_label_chunk`:
sub-head, encoded record, and a pad byte when the sub-chunk size is odd. -/
def labelRecordBytes (lt : LabeledText) : List Nat :=
  ChunkHead.as_bytes ⟨ltxtTag, lt.text.length + LABELED_TEXT_MIN_SZ⟩ ++
    lt.as_bytes ++
    (if (lt.text.length + LABELED_TEXT_MIN_SZ) % 2 = 1 then [0] else [])

/-- Wire form of the record sequence of a `LIST/adtl` chunk. -/
def labelRecordsBytes (lts : List LabeledText) : List Nat :=
  (lts.map labelRecordBytes).flatten

theorem labelRecordBytes_length (lt : LabeledText) :
    (labelRecordBytes lt).length =
      pad_size_16 lt.text.length + LABELED_TEXT_MIN_SZ + CHUNK_HEAD_SZ := by
  unfold labelRecordBytes pad_size_16
  simp only [List.length_append, ChunkHead.as_bytes, Tag4.bytes, toLe32,
    List.length_cons, List.length_nil, LabeledText.ltxt_record_length,
    LABELED_TEXT_MIN_SZ, CHUNK_HEAD_SZ]
  by_cases h : lt.text.length % 2 = 1
  · rw [if_pos (by omega), if_pos h]
    simp
    omega
  · rw [if_neg (by omega), if_neg h]
    simp
    omega

theorem labelChunkSize_eq :
    ∀ (lts : List LabeledText) (a : Nat),
      lts.foldl
        (fun accum ltxt =>
          pad_size_16 ltxt.text.length + LABELED_TEXT_MIN_SZ + accum +
            CHUNK_HEAD_SZ) a =
        a + (labelRecordsBytes lts).length := by
  intro lts
  induction lts with
  | nil => intro a; simp [labelRecordsBytes]
  | cons lt lts ih =>
    intro a
    simp only [List.foldl_cons, labelRecordsBytes, List.map_cons,
      List.flatten_cons, List.length_append]
    rw [ih]
    have := labelRecordBytes_length lt
    unfold labelRecordsBytes at *
    omega

theorem labelChunkSize_val (lts : List LabeledText) :
    labelChunkSize lts = (labelRecordsBytes lts).length + 4 := by
  unfold labelChunkSize
  rw [labelChunkSize_eq lts 0]
  omega

theorem foldl_write_labels :
    ∀ (lts : List LabeledText) (s : Stream), s.pos = s.data.length →
      lts.foldl
        (fun s ltxt =>
          let sub_chunk_sz := ltxt.text.length + LABELED_TEXT_MIN_SZ
          let sub_chunk_head : ChunkHead :=
            { tag := ltxtTag, size := sub_chunk_sz }
          let s := s.write_all sub_chunk_head.as_bytes
          let s := s.write_all ltxt.as_bytes
          if sub_chunk_sz % 2 = 1 then s.write_all [0] else s)
        s =
        ⟨s.data ++ labelRecordsBytes lts,
          s.pos + (labelRecordsBytes lts).length⟩ := by
  intro lts
  induction lts with
  | nil =>
    intro s h
    simp [labelRecordsBytes]
  | cons lt lts ih =>
    intro s h
    simp only [List.foldl_cons]
    have hhd : (ChunkHead.as_bytes
        ⟨ltxtTag, lt.text.length + LABELED_TEXT_MIN_SZ⟩).length = 8 := by
      simp [ChunkHead.as_bytes, Tag4.bytes, toLe32]
    have hw1 := Stream.write_all_append (s := s)
      (ChunkHead.as_bytes ⟨ltxtTag, lt.text.length + LABELED_TEXT_MIN_SZ⟩) h
    have hw2 := Stream.write_all_append
      (s := ⟨s.data ++ ChunkHead.as_bytes
          ⟨ltxtTag, lt.text.length + LABELED_TEXT_MIN_SZ⟩,
        s.pos + (ChunkHead.as_bytes
          ⟨ltxtTag, lt.text.length + LABELED_TEXT_MIN_SZ⟩).length⟩)
      lt.as_bytes (by simp only [List.length_append]; omega)
    rw [hw1, hw2]
    by_cases hodd : (lt.text.length + LABELED_TEXT_MIN_SZ) % 2 = 1
    · rw [if_pos hodd]
      have hw3 := Stream.write_all_append
        (s := ⟨(s.data ++ ChunkHead.as_bytes
            ⟨ltxtTag, lt.text.length + LABELED_TEXT_MIN_SZ⟩) ++ lt.as_bytes,
          s.pos + (ChunkHead.as_bytes
            ⟨ltxtTag, lt.text.length + LABELED_TEXT_MIN_SZ⟩).length +
            lt.as_bytes.length⟩)
        [0] (by simp only [List.length_append]; omega)
      rw [hw3]
      rw [ih _ (by simp only [List.length_append]; omega)]
      simp only [labelRecordsBytes, List.map_cons, List.flatten_cons]
      unfold labelRecordBytes
      rw [if_pos hodd, Stream.mk.injEq]
      refine ⟨by simp [List.append_assoc], ?_⟩
      simp only [List.length_append, List.length_cons, List.length_nil, hhd,
        LabeledText.ltxt_record_length, LABELED_TEXT_MIN_SZ]
      omega
    · rw [if_neg hodd]
      rw [ih _ (by simp only [List.length_append]; omega)]
      simp only [labelRecordsBytes, List.map_cons, List.flatten_cons]
      unfold labelRecordBytes
      rw [if_neg hodd, Stream.mk.injEq]
      refine ⟨by simp [List.append_assoc], ?_⟩
      simp only [List.append_nil, List.length_append, List.length_cons,
        List.length_nil, hhd, LabeledText.ltxt_record_length,
        LABELED_TEXT_MIN_SZ]
      omega

/-- Frame effect of `append_label_chunk` on a whole-stream container:
size field bumped by `8 + chunk_size`, `LIST` head + `adtl` + records
appended at the original end, everything else untouched. -/
theorem append_label_frame (lts : List LabeledText) (body : List Nat)
    (heven : body.length % 2 = 0)
    (hfit : labelChunkSize lts + 8 + (4 + body.length) < 4294967296) :
    (append_label_chunk ⟨wholeContainer body, 0⟩ lts).1 = .ok () ∧
      (append_label_chunk ⟨wholeContainer body, 0⟩ lts).2.data =
        riffTag.bytes ++
          toLe32 ((4 + body.length) + (8 + labelChunkSize lts)) ++
          waveTag.bytes ++ body ++
          ChunkHead.as_bytes ⟨listTag, labelChunkSize lts⟩ ++
          adtlTag.bytes ++ labelRecordsBytes lts ∧
      (append_label_chunk ⟨wholeContainer body, 0⟩ lts).2.data.length =
        (wholeContainer body).length + (8 + labelChunkSize lts) := by
  have hA : (⟨wholeContainer body, 0⟩ : Stream).data.drop
      (⟨wholeContainer body, 0⟩ : Stream).pos =
      riffTag.bytes ++ toLe32 (4 + body.length) ++ (waveTag.bytes ++ body) := by
    show (wholeContainer body).drop 0 = _
    rw [List.drop_zero, wholeContainer, List.append_assoc]
  have hriff := read_riff_head_at hA (by omega) (by omega)
  unfold append_label_chunk
  rw [hriff]
  simp only [Stream.stream_position]
  rw [if_pos (by omega)]
  rw [if_pos (by simp only [CHUNK_HEAD_SZ]; omega)]
  simp only [Stream.seekStart]
  have hw1 : (⟨wholeContainer body, 0 + 12 - 8⟩ : Stream).write_all
      (toLe32 (labelChunkSize lts + CHUNK_HEAD_SZ + (4 + body.length))) =
      ⟨riffTag.bytes ++
          toLe32 (labelChunkSize lts + CHUNK_HEAD_SZ + (4 + body.length)) ++
          (waveTag.bytes ++ body), 8⟩ := by
    rw [Stream.write_all_within _
      (by show 0 + 12 - 8 ≤ (wholeContainer body).length
          rw [wholeContainer_length]; omega)]
    have e1 : (wholeContainer body).take (0 + 12 - 8) = riffTag.bytes := by
      show (wholeContainer body).take 4 = riffTag.bytes
      rw [wholeContainer, List.append_assoc, List.append_assoc]
      exact List.take_left' rfl
    have e2 : (wholeContainer body).drop (0 + 12 - 8 +
        (toLe32 (labelChunkSize lts + CHUNK_HEAD_SZ +
          (4 + body.length))).length) =
        waveTag.bytes ++ body := by
      show (wholeContainer body).drop 8 = waveTag.bytes ++ body
      rw [wholeContainer]
      have e : riffTag.bytes ++ toLe32 (4 + body.length) ++ waveTag.bytes ++
          body = (riffTag.bytes ++ toLe32 (4 + body.length)) ++
            (waveTag.bytes ++ body) := by
        simp [List.append_assoc]
      rw [e]
      exact List.drop_left' (by simp [Tag4.bytes, toLe32])
    rw [e1, e2]
    simp [List.append_assoc, toLe32_length]
  rw [hw1]
  have hseek := Stream.seekCurrent_ofNat
    (⟨riffTag.bytes ++
        toLe32 (labelChunkSize lts + CHUNK_HEAD_SZ + (4 + body.length)) ++
        (waveTag.bytes ++ body), 8⟩ : Stream) (4 + body.length)
  rw [hseek]
  simp only
  have hlen1 : (riffTag.bytes ++
      toLe32 (labelChunkSize lts + CHUNK_HEAD_SZ + (4 + body.length)) ++
      (waveTag.bytes ++ body)).length = 12 + body.length := by
    simp [Tag4.bytes, toLe32]
    omega
  have hw2 := Stream.write_all_append
    (s := ⟨riffTag.bytes ++
        toLe32 (labelChunkSize lts + CHUNK_HEAD_SZ + (4 + body.length)) ++
        (waveTag.bytes ++ body), 8 + (4 + body.length)⟩)
    (ChunkHead.as_bytes ⟨listTag, labelChunkSize lts⟩)
    (by show 8 + (4 + body.length) = _; rw [hlen1]; omega)
  rw [hw2]
  have hw3 := Stream.write_all_append
    (s := ⟨(riffTag.bytes ++
        toLe32 (labelChunkSize lts + CHUNK_HEAD_SZ + (4 + body.length)) ++
        (waveTag.bytes ++ body)) ++
        ChunkHead.as_bytes ⟨listTag, labelChunkSize lts⟩,
        8 + (4 + body.length) +
          (ChunkHead.as_bytes ⟨listTag, labelChunkSize lts⟩).length⟩)
    adtlTag.bytes
    (by
      show 8 + (4 + body.length) + _ = _
      simp only [List.length_append, hlen1]
      omega)
  rw [hw3]
  have hfold := foldl_write_labels lts
    ⟨((riffTag.bytes ++
        toLe32 (labelChunkSize lts + CHUNK_HEAD_SZ + (4 + body.length)) ++
        (waveTag.bytes ++ body)) ++
        ChunkHead.as_bytes ⟨listTag, labelChunkSize lts⟩) ++ adtlTag.bytes,
      8 + (4 + body.length) +
        (ChunkHead.as_bytes ⟨listTag, labelChunkSize lts⟩).length +
        (Tag4.bytes adtlTag).length⟩
    (by
      show 8 + (4 + body.length) + _ + _ = _
      simp only [List.length_append, hlen1]
      omega)
  rw [hfold]
  refine ⟨by trivial, ?_, ?_⟩
  · show ((riffTag.bytes ++
        toLe32 (labelChunkSize lts + CHUNK_HEAD_SZ + (4 + body.length)) ++
        (waveTag.bytes ++ body)) ++
        ChunkHead.as_bytes ⟨listTag, labelChunkSize lts⟩ ++
        adtlTag.bytes) ++ labelRecordsBytes lts = _
    have e32 : labelChunkSize lts + CHUNK_HEAD_SZ + (4 + body.length) =
        (4 + body.length) + (8 + labelChunkSize lts) := by
      simp only [CHUNK_HEAD_SZ]
      omega
    rw [e32]
    simp [List.append_assoc]
  · show ((riffTag.bytes ++
        toLe32 (labelChunkSize lts + CHUNK_HEAD_SZ + (4 + body.length)) ++
        (waveTag.bytes ++ body)) ++
        ChunkHead.as_bytes ⟨listTag, labelChunkSize lts⟩ ++
        adtlTag.bytes ++ labelRecordsBytes lts).length = _
    have hrec := labelChunkSize_val lts
    have hhd8 : (ChunkHead.as_bytes ⟨listTag, labelChunkSize lts⟩).length =
        8 := by
      simp [ChunkHead.as_bytes, Tag4.bytes, toLe32]
    simp only [List.length_append, hlen1, hhd8, wholeContainer_length,
      Tag4.bytes, List.length_cons, List.length_nil, toLe32_length]
    omega

theorem ChunkHead.as_bytes_length (h : ChunkHead) : h.as_bytes.length = 8 := by
  simp [ChunkHead.as_bytes, Tag4.bytes, toLe32]

theorem size_field_of_shape (x : Nat) (R : List Nat) :
    ((riffTag.bytes ++ (toLe32 x ++ R)).drop 4).take 4 = toLe32 x := by
  rw [List.drop_left' (by rfl), List.take_left' (toLe32_length x)]

/-- C3: when the computed chunk size or the updated top-level size would
not fit the 32-bit size field, both append functions fail with the
`CHUNK_TOO_BIG` format error and write nothing — every byte of the
stream, the RIFF size field included, keeps its prior value. -/
theorem C3_append_overflow_no_write (s : Stream) (cues : List CuePoint)
    (lts : List LabeledText) (S : Nat) (R : List Nat)
    (hA : s.data.drop s.pos =
      riffTag.bytes ++ toLe32 S ++ (waveTag.bytes ++ R))
    (hS : S < 4294967296) (heven : S % 2 = 0)
    (hcue : 4294967296 ≤ cues.length * 24 + 4 ∨
      4294967296 ≤ cues.length * 24 + 4 + 8 + S)
    (hltxt : 4294967296 ≤ labelChunkSize lts ∨
      4294967296 ≤ labelChunkSize lts + 8 + S) :
    ((append_cue_chunk s cues).1 = .error (.wave CHUNK_TOO_BIG) ∧
      (append_cue_chunk s cues).2.data = s.data) ∧
    ((append_label_chunk s lts).1 = .error (.wave CHUNK_TOO_BIG) ∧
      (append_label_chunk s lts).2.data = s.data) := by
  have hriff := read_riff_head_at hA hS heven
  constructor
  · unfold append_cue_chunk
    rw [hriff]
    simp only [Stream.stream_position]
    by_cases h1 : cues.length * CUE_SZ + 4 < 4294967296
    · rw [if_pos h1]
      rw [if_neg (by simp only [CUE_SZ, CHUNK_HEAD_SZ] at *; omega)]
      exact ⟨rfl, rfl⟩
    · rw [if_neg h1]
      exact ⟨rfl, rfl⟩
  · unfold append_label_chunk
    rw [hriff]
    simp only [Stream.stream_position]
    by_cases h1 : labelChunkSize lts < 4294967296
    · rw [if_pos h1]
      rw [if_neg (by simp only [CHUNK_HEAD_SZ] at *; omega)]
      exact ⟨rfl, rfl⟩
    · rw [if_neg h1]
      exact ⟨rfl, rfl⟩

/-- Witness stream whose declared RIFF size is `2^32 - 2`: valid header,
but any append would push the size field past 32 bits. -/
def hugeHeader : Stream :=
  ⟨riffTag.bytes ++ toLe32 4294967294 ++ waveTag.bytes, 0⟩

theorem C3_witness :
    ((append_cue_chunk hugeHeader []).1 = .error (.wave CHUNK_TOO_BIG) ∧
      (append_cue_chunk hugeHeader []).2.data = hugeHeader.data) ∧
    ((append_label_chunk hugeHeader []).1 = .error (.wave CHUNK_TOO_BIG) ∧
      (append_label_chunk hugeHeader []).2.data = hugeHeader.data) :=
  C3_append_overflow_no_write hugeHeader [] [] 4294967294 []
    (by decide) (by decide) (by decide)
    (by right; decide) (by right; decide)

theorem C4_witness :
    (append_cue_chunk ⟨wholeContainer (chunkBytes ⟨⟨0x66, 0x6D, 0x74, 0x20⟩,
        List.replicate 33 0⟩ ++ chunkBytes ⟨dataTag, [0]⟩), 0⟩
      [CuePoint.from_sample_offset 1 333,
        CuePoint.from_sample_offset 2 477]).1 = .ok () ∧
      (append_cue_chunk ⟨wholeContainer (chunkBytes ⟨⟨0x66, 0x6D, 0x74, 0x20⟩,
          List.replicate 33 0⟩ ++ chunkBytes ⟨dataTag, [0]⟩), 0⟩
        [CuePoint.from_sample_offset 1 333,
          CuePoint.from_sample_offset 2 477]).2.data =
        riffTag.bytes ++
          toLe32 ((4 + (chunkBytes ⟨⟨0x66, 0x6D, 0x74, 0x20⟩,
            List.replicate 33 0⟩ ++ chunkBytes ⟨dataTag, [0]⟩).length) +
            (8 + (4 + 24 * 2))) ++
          waveTag.bytes ++ (chunkBytes ⟨⟨0x66, 0x6D, 0x74, 0x20⟩,
            List.replicate 33 0⟩ ++ chunkBytes ⟨dataTag, [0]⟩) ++
          ChunkHead.as_bytes ⟨cueTag, 4 + 24 * 2⟩ ++ toLe32 2 ++
          (([CuePoint.from_sample_offset 1 333,
            CuePoint.from_sample_offset 2 477].map CuePoint.as_bytes).flatten) ∧
      (append_cue_chunk ⟨wholeContainer (chunkBytes ⟨⟨0x66, 0x6D, 0x74, 0x20⟩,
          List.replicate 33 0⟩ ++ chunkBytes ⟨dataTag, [0]⟩), 0⟩
        [CuePoint.from_sample_offset 1 333,
          CuePoint.from_sample_offset 2 477]).2.data.length =
        (wholeContainer (chunkBytes ⟨⟨0x66, 0x6D, 0x74, 0x20⟩,
          List.replicate 33 0⟩ ++ chunkBytes ⟨dataTag, [0]⟩)).length +
          (8 + 4 + 24 * 2) :=
  C4_append_cue_frame
    [CuePoint.from_sample_offset 1 333, CuePoint.from_sample_offset 2 477]
    (chunkBytes ⟨⟨0x66, 0x6D, 0x74, 0x20⟩, List.replicate 33 0⟩ ++
      chunkBytes ⟨dataTag, [0]⟩)
    (by decide) (by decide)

/-- C1 counterexample: appending a cue chunk and then, with no
repositioning, a label chunk on the same cursor does not succeed — the
second append re-parses the RIFF head at the cursor's current position,
which after the first append is the end of the stream, so it fails with
an I/O error. -/
theorem C1_counterexample :
    (append_cue_chunk ⟨wholeContainer [], 0⟩ []).1 = .ok () ∧
      (append_label_chunk
        ((append_cue_chunk ⟨wholeContainer [], 0⟩ []).2) []).1 =
        .error .io :=
  ⟨rfl, rfl⟩

/-- C1 (amended): the sequence of appends composes when the caller
repositions the cursor to the container start between calls; the second
append then re-reads the already-updated top-level size, so the final
size field accounts for both appends. -/
theorem C1_appends_compose_with_reposition (cues : List CuePoint)
    (lts : List LabeledText) (body : List Nat)
    (heven : body.length % 2 = 0)
    (hfit1 : cues.length * 24 + 4 + 8 + (4 + body.length) < 4294967296)
    (hfit2 : labelChunkSize lts + 8 +
      ((4 + body.length) + (8 + (4 + 24 * cues.length))) < 4294967296) :
    (append_cue_chunk ⟨wholeContainer body, 0⟩ cues).1 = .ok () ∧
      (append_label_chunk
        ⟨(append_cue_chunk ⟨wholeContainer body, 0⟩ cues).2.data, 0⟩
        lts).1 = .ok () ∧
      (((append_label_chunk
        ⟨(append_cue_chunk ⟨wholeContainer body, 0⟩ cues).2.data, 0⟩
        lts).2.data.drop 4).take 4) =
        toLe32 ((((4 + body.length) + (8 + (4 + 24 * cues.length)))) +
          (8 + labelChunkSize lts)) := by
  obtain ⟨hok1, hdata1, _⟩ := append_cue_frame cues body heven hfit1
  have hlenb1 : (body ++ ChunkHead.as_bytes ⟨cueTag, 4 + 24 * cues.length⟩ ++
      toLe32 cues.length ++ (cues.map CuePoint.as_bytes).flatten).length =
      body.length + 12 + 24 * cues.length := by
    simp only [List.length_append, ChunkHead.as_bytes_length, toLe32_length,
      flatten_as_bytes_length]
  have hdata1' : (append_cue_chunk ⟨wholeContainer body, 0⟩ cues).2.data =
      wholeContainer (body ++ ChunkHead.as_bytes ⟨cueTag, 4 + 24 * cues.length⟩ ++
        toLe32 cues.length ++ (cues.map CuePoint.as_bytes).flatten) := by
    rw [hdata1, wholeContainer, hlenb1]
    have e : 4 + (body.length + 12 + 24 * cues.length) =
        (4 + body.length) + (8 + (4 + 24 * cues.length)) := by omega
    rw [e]
    simp [List.append_assoc]
  obtain ⟨hok2, hdata2, _⟩ := append_label_frame lts
    (body ++ ChunkHead.as_bytes ⟨cueTag, 4 + 24 * cues.length⟩ ++
      toLe32 cues.length ++ (cues.map CuePoint.as_bytes).flatten)
    (by rw [hlenb1]; omega)
    (by rw [hlenb1]; omega)
  refine ⟨hok1, ?_, ?_⟩
  · rw [hdata1']
    exact hok2
  · rw [hdata1', hdata2]
    simp only [List.append_assoc]
    rw [size_field_of_shape]
    have e : (4 + (body ++ (ChunkHead.as_bytes ⟨cueTag, 4 + 24 * cues.length⟩ ++
        (toLe32 cues.length ++ (cues.map CuePoint.as_bytes).flatten))).length) =
        (4 + body.length) + (8 + (4 + 24 * cues.length)) := by
      simp only [List.length_append, ChunkHead.as_bytes_length, toLe32_length,
        flatten_as_bytes_length]
      omega
    rw [e]

theorem C1_witness :
    (append_cue_chunk ⟨wholeContainer [], 0⟩ []).1 = .ok () ∧
      (append_label_chunk
        ⟨(append_cue_chunk ⟨wholeContainer [], 0⟩ []).2.data, 0⟩ []).1 =
        .ok () ∧
      (((append_label_chunk
        ⟨(append_cue_chunk ⟨wholeContainer [], 0⟩ []).2.data, 0⟩
        []).2.data.drop 4).take 4) =
        toLe32 ((((4 + ([] : List Nat).length) + (8 + (4 + 24 * 0)))) +
          (8 + labelChunkSize [])) :=
  C1_appends_compose_with_reposition [] [] [] (by decide) (by decide)
    (by decide)

/-- C7: decoding the encoding of any `LabeledText` — empty or odd-length
text included — reproduces it in every field (the `u32`/`u16` fields are
in range and the text is valid UTF-8 by the Rust types). -/
theorem C7_labeled_text_roundtrip (x : LabeledText) (h : x.Wf) :
    LabeledText.parse? x.as_bytes = some x := by
  obtain ⟨h1, h2, h3, hutf⟩ := h
  have hlen : 20 ≤ x.as_bytes.length := by
    rw [LabeledText.ltxt_record_length]
    omega
  rcases x with ⟨cid, slen, pid, co, la, di, cp, tx⟩
  rcases pid with ⟨p0, p1, p2, p3⟩
  rcases co with ⟨c0, c1⟩
  rcases la with ⟨l0, l1⟩
  rcases di with ⟨d0, d1⟩
  unfold LabeledText.parse?
  rw [if_pos hlen]
  simp only [LabeledText.as_bytes, Tag4.bytes, Tag2.bytes, toLe32, toLe16,
    List.cons_append, List.nil_append]
  simp only [List.take, List.drop, fromLe32, fromLe16, tag4OfList, tag2OfList]
  rw [utf8Lossy_of_valid hutf]
  simp only [Option.some.injEq, LabeledText.mk.injEq] at *
  refine ⟨by omega, by omega, trivial, trivial, trivial, trivial, by omega,
    trivial⟩

/-- Witness labeled text: cue 1, length 269, text `hello` (5 bytes, odd
length). -/
def wLtxt : LabeledText :=
  { LabeledText.from_cue_length 1 269 with
    text := [104, 101, 108, 108, 111] }

theorem C7_witness : LabeledText.parse? wLtxt.as_bytes = some wLtxt :=
  C7_labeled_text_roundtrip wLtxt (by decide)

/-- Specification-side description of `LIST/adtl` extraction, transcribed
from the claim's words: after the 4-byte list-type tag, iterate sub-chunk
heads, keep `ltxt` sub-chunks whose declared size is at least 20 and fits
the remaining buffer, decode each from exactly its declared-size
sub-range, skip the body plus one pad byte when the declared size is odd,
and stop as soon as fewer than 8 bytes remain. -/
def extractSpecLoop : Nat → List Nat → List LabeledText
  | 0, _ => []
  | fuel + 1, slice =>
    if slice.length < 8 then []
    else
      let tag := tag4OfList (slice.take 4)
      let size := fromLe32 ((slice.drop 4).take 4)
      let kept :=
        if tag = ltxtTag ∧ 20 ≤ size ∧ 8 + size ≤ slice.length then
          (LabeledText.parse? ((slice.drop 8).take size)).toList
        else []
      kept ++ extractSpecLoop fuel
        (slice.drop (8 + size + (if size % 2 = 1 then 1 else 0)))

/-- Specification-side extraction over a whole `LIST` body. -/
def extractSpec (bytes : List Nat) : List LabeledText :=
  extractSpecLoop (bytes.drop 4).length (bytes.drop 4)

theorem drop_min_length (l : List Nat) (n : Nat) :
    l.drop (min n l.length) = l.drop n := by
  rcases Nat.le_total n l.length with h | h
  · rw [Nat.min_eq_left h]
  · rw [Nat.min_eq_right h, List.drop_eq_nil_of_le h,
      List.drop_eq_nil_of_le (le_refl l.length)]

theorem extractLoop_succ (fuel : Nat) (slice : List Nat) :
    extractLoop (fuel + 1) slice =
      if 8 ≤ slice.length then
        (if tag4OfList (slice.take 4) = ltxtTag ∧
            LABELED_TEXT_MIN_SZ ≤ fromLe32 ((slice.drop 4).take 4) ∧
            fromLe32 ((slice.drop 4).take 4) ≤ (slice.drop 8).length then
          (LabeledText.parse? ((slice.drop 8).take
            (fromLe32 ((slice.drop 4).take 4)))).toList
        else []) ++
        extractLoop fuel
          (if fromLe32 ((slice.drop 4).take 4) % 2 = 1 ∧
              (slice.drop 8).drop (min (fromLe32 ((slice.drop 4).take 4))
                (slice.drop 8).length) ≠ [] then
            ((slice.drop 8).drop (min (fromLe32 ((slice.drop 4).take 4))
              (slice.drop 8).length)).drop 1
          else (slice.drop 8).drop (min (fromLe32 ((slice.drop 4).take 4))
            (slice.drop 8).length))
      else [] := rfl

theorem extractSpecLoop_succ (fuel : Nat) (slice : List Nat) :
    extractSpecLoop (fuel + 1) slice =
      if slice.length < 8 then []
      else
        (if tag4OfList (slice.take 4) = ltxtTag ∧
            20 ≤ fromLe32 ((slice.drop 4).take 4) ∧
            8 + fromLe32 ((slice.drop 4).take 4) ≤ slice.length then
          (LabeledText.parse? ((slice.drop 8).take
            (fromLe32 ((slice.drop 4).take 4)))).toList
        else []) ++
        extractSpecLoop fuel
          (slice.drop (8 + fromLe32 ((slice.drop 4).take 4) +
            (if fromLe32 ((slice.drop 4).take 4) % 2 = 1 then 1 else 0))) :=
  rfl

theorem extractLoop_eq_spec :
    ∀ (fuel : Nat) (slice : List Nat), slice.length ≤ fuel →
      extractLoop fuel slice = extractSpecLoop fuel slice := by
  intro fuel
  induction fuel with
  | zero => intro slice _; rfl
  | succ n ih =>
    intro slice hlen
    rw [extractLoop_succ, extractSpecLoop_succ]
    by_cases h8 : 8 ≤ slice.length
    · rw [if_pos h8, if_neg (show ¬(slice.length < 8) by omega)]
      have hd : (slice.drop 8).length = slice.length - 8 := by simp
      have hkept :
          (if tag4OfList (slice.take 4) = ltxtTag ∧
              LABELED_TEXT_MIN_SZ ≤ fromLe32 ((slice.drop 4).take 4) ∧
              fromLe32 ((slice.drop 4).take 4) ≤ (slice.drop 8).length then
            (LabeledText.parse?
              ((slice.drop 8).take (fromLe32 ((slice.drop 4).take 4)))).toList
          else []) =
          (if tag4OfList (slice.take 4) = ltxtTag ∧
              20 ≤ fromLe32 ((slice.drop 4).take 4) ∧
              8 + fromLe32 ((slice.drop 4).take 4) ≤ slice.length then
            (LabeledText.parse?
              ((slice.drop 8).take (fromLe32 ((slice.drop 4).take 4)))).toList
          else []) := by
        apply if_congr _ rfl rfl
        simp only [LABELED_TEXT_MIN_SZ, List.length_drop]
        constructor
        · rintro ⟨ht, hm, hf⟩
          exact ⟨ht, hm, by omega⟩
        · rintro ⟨ht, hm, hf⟩
          exact ⟨ht, hm, by omega⟩
      rw [hkept]
      have hnext :
          (if fromLe32 ((slice.drop 4).take 4) % 2 = 1 ∧
              (slice.drop 8).drop
                (min (fromLe32 ((slice.drop 4).take 4))
                  (slice.drop 8).length) ≠ [] then
            ((slice.drop 8).drop
              (min (fromLe32 ((slice.drop 4).take 4))
                (slice.drop 8).length)).drop 1
          else
            (slice.drop 8).drop
              (min (fromLe32 ((slice.drop 4).take 4))
                (slice.drop 8).length)) =
          slice.drop (8 + fromLe32 ((slice.drop 4).take 4) +
            (if fromLe32 ((slice.drop 4).take 4) % 2 = 1 then 1 else 0)) := by
        rw [drop_min_length, List.drop_drop]
        by_cases hodd : fromLe32 ((slice.drop 4).take 4) % 2 = 1
        · by_cases hnil :
              slice.drop (8 + fromLe32 ((slice.drop 4).take 4)) = []
          · rw [if_neg (by simp [hnil])]
            rw [if_pos hodd, hnil]
            have hc := congrArg List.length hnil
            simp only [List.length_drop, List.length_nil] at hc
            rw [List.drop_eq_nil_of_le (by omega)]
          · rw [if_pos ⟨hodd, hnil⟩, if_pos hodd, List.drop_drop]
        · rw [if_neg (by intro hc; exact hodd hc.1), if_neg hodd]
          have e : 8 + fromLe32 ((slice.drop 4).take 4) =
              8 + fromLe32 ((slice.drop 4).take 4) + 0 := by omega
          conv_lhs => rw [e]
      rw [hnext]
      rw [ih _ (by simp; omega)]
    · rw [if_neg h8, if_pos (by omega)]

/-- C8: `extract_labeled_text_from_list` behaves exactly as the claim
describes, for every input buffer. -/
theorem C8_extract_labeled_text_spec (bytes : List Nat) :
    extract_labeled_text_from_list bytes = extractSpec bytes := by
  unfold extract_labeled_text_from_list extractSpec
  by_cases h4 : bytes.length < 4
  · rw [if_pos h4]
    have hnil : bytes.drop 4 = [] := List.drop_eq_nil_of_le (by omega)
    rw [hnil]
    rfl
  · rw [if_neg h4]
    exact extractLoop_eq_spec (bytes.drop 4).length (bytes.drop 4) le_rfl

/-- Modelled from the spec: the Bounded Virtual Cursor (spec §4.6) has no
implementation under src/ — this structure transcribes the spec's state:
a synthetic 8-byte header (`RIFF` tag plus an explicitly supplied 32-bit
size), a remembered absolute `offset` into an underlying stream, a
logical length `endPos`, and a logical position. -/
structure SubCursor where
  size : Nat
  offset : Nat
  endPos : Nat
  logical_position : Nat
  base : Stream
deriving Repr, DecidableEq

/-- Synthetic 8-byte header of a Bounded Virtual Cursor: `RIFF` tag plus
the supplied size, independent of the underlying bytes. -/
def SubCursor.header (sc : SubCursor) : List Nat :=
  riffTag.bytes ++ toLe32 sc.size

/-- Modelled from the spec: the read operation of the Bounded Virtual
Cursor.  Bytes are served first from the synthetic header (logical
positions below 8), then from the underlying stream at
`offset + logical_position`; a read whose end exceeds `endPos` fails with
an out-of-bounds error. -/
def SubCursor.read (sc : SubCursor) (n : Nat) :
    Except Error (List Nat × SubCursor) :=
  if sc.logical_position + n ≤ sc.endPos then
    let headerPart := (sc.header.drop sc.logical_position).take n
    let bodyPart :=
      (sc.base.data.drop (sc.offset + max sc.logical_position 8)).take
        (n - headerPart.length)
    .ok (headerPart ++ bodyPart,
      { sc with logical_position := sc.logical_position + n })
  else .error (.wave "Read out of bounds")

theorem SubCursor.header_length (sc : SubCursor) : sc.header.length = 8 := by
  simp [SubCursor.header, Tag4.bytes, toLe32]

/-- C10: within bounds, a read returns exactly `n` bytes, serving logical
positions `[0,8)` from the synthetic header and positions `[8,end)` from
the underlying stream at `offset + position` — interleaving both sources
when the read spans the boundary — and a read past `end` fails with an
out-of-bounds error. -/
theorem C10_sub_cursor_read (sc : SubCursor) (n : Nat)
    (hbase : sc.offset + sc.endPos ≤ sc.base.data.length) :
    (sc.logical_position + n ≤ sc.endPos →
      ∃ out, sc.read n =
        .ok (out,
          { sc with logical_position := sc.logical_position + n }) ∧
        out.length = n ∧
        ∀ i, i < n →
          out[i]? =
            if sc.logical_position + i < 8 then
              sc.header[sc.logical_position + i]?
            else
              sc.base.data[sc.offset + (sc.logical_position + i)]?) ∧
    (¬(sc.logical_position + n ≤ sc.endPos) →
      sc.read n = .error (.wave "Read out of bounds")) := by
  constructor
  · intro hle
    refine ⟨(sc.header.drop sc.logical_position).take n ++
      (sc.base.data.drop (sc.offset + max sc.logical_position 8)).take
        (n - ((sc.header.drop sc.logical_position).take n).length),
      ?_, ?_, ?_⟩
    · unfold SubCursor.read
      rw [if_pos hle]
    · simp only [List.length_append, List.length_take, List.length_drop,
        SubCursor.header_length]
      omega
    · intro i hi
      have hhd : ((sc.header.drop sc.logical_position).take n).length =
          min n (8 - sc.logical_position) := by
        simp [SubCursor.header_length]
      by_cases hc : sc.logical_position + i < 8
      · rw [if_pos hc]
        rw [List.getElem?_append]
        rw [if_pos (by rw [hhd]; omega)]
        rw [List.getElem?_take_of_lt (by omega), List.getElem?_drop]
      · rw [if_neg hc]
        rw [List.getElem?_append_right (by rw [hhd]; omega)]
        rw [hhd]
        rw [List.getElem?_take_of_lt (by omega), List.getElem?_drop]
        congr 1
        omega
  · intro hgt
    unfold SubCursor.read
    rw [if_neg hgt]

theorem C10_witness :
    ((0 : Nat) + 10 ≤ 12 →
      ∃ out, SubCursor.read ⟨4, 3, 12, 0, ⟨List.replicate 32 7, 0⟩⟩ 10 =
        .ok (out, { (⟨4, 3, 12, 0, ⟨List.replicate 32 7, 0⟩⟩ : SubCursor) with
          logical_position := 0 + 10 }) ∧
        out.length = 10 ∧
        ∀ i, i < 10 →
          out[i]? =
            if 0 + i < 8 then
              (SubCursor.header ⟨4, 3, 12, 0, ⟨List.replicate 32 7, 0⟩⟩)[0 + i]?
            else
              (List.replicate (32 : Nat) (7 : Nat))[3 + (0 + i)]?) ∧
    (¬((0 : Nat) + 10 ≤ 12) →
      SubCursor.read ⟨4, 3, 12, 0, ⟨List.replicate 32 7, 0⟩⟩ 10 =
        .error (.wave "Read out of bounds")) :=
  C10_sub_cursor_read ⟨4, 3, 12, 0, ⟨List.replicate 32 7, 0⟩⟩ 10 (by decide)

end Cuet
